import Mathlib

/-! SSZ primitive codec (package `ssz`, file `ssz/encoder.go`)

A shallow embedding of the Go functions of `encoder.go`.

* A byte slice is a `List Nat`; every element of a well-formed buffer is below 256
  and every write stores a value reduced modulo 256 (Go's `byte(x)` conversion).
  Slices are modelled with capacity equal to their length.
* `uint32` values are natural numbers below `2 ^ 32`; every `uint32` addition and
  subtraction of the source is reduced modulo `2 ^ 32` (`u32`, `sub32`, `neg32`).
* A Go function that mutates its buffer returns the buffer after the call next to
  its Go results.  A run-time panic (index or slice bounds out of range, division
  by zero) is the outer `none`; a Go `error` result is the inner `Option SszError`.
-/

namespace Ssz

/-- A Go byte slice whose capacity equals its length. -/
abbrev Buf := List Nat

/-- The Go errors built with `fmt.Errorf` in `encoder.go`, with their format arguments. -/
inductive SszError where
  | insufficientBuffer (have_ require : Nat)
  | invalidWidth (n : Nat)
  | invalidBoolean (b : Nat)
  | insufficientInput
  | unknownType (name : String)
  deriving DecidableEq, Repr

/-- Conversion to `uint32`: reduction modulo `2 ^ 32`. -/
def u32 (x : Nat) : Nat := x % 2 ^ 32

/-- Subtraction of two `uint32` values, wrapping around below zero. -/
def sub32 (a b : Nat) : Nat := (u32 a + 2 ^ 32 - u32 b) % 2 ^ 32

/-- Unary minus on a `uint32` value. -/
def neg32 (a : Nat) : Nat := (2 ^ 32 - u32 a) % 2 ^ 32

/-- Conversion to `byte`: reduction modulo 256. -/
def byte (x : Nat) : Nat := x % 256

/-- The slice expression `b[lo:]`; it panics when `lo` exceeds the length. -/
def sliceFrom (b : Buf) (lo : Nat) : Option Buf :=
  if lo ≤ b.length then some (b.drop lo) else none

/-- The slice expression `b[lo:hi]`; it panics unless `lo ≤ hi ≤ cap(b)`.  The capacity
is taken to be the length, so on a slice with spare capacity the model panics where Go would
still return. -/
def slice (b : Buf) (lo hi : Nat) : Option Buf :=
  if lo ≤ hi ∧ hi ≤ b.length then some ((b.take hi).drop lo) else none

/-- Go's builtin `copy(dst, src)`: the first `min (len dst) (len src)` bytes of `dst`
are overwritten with those of `src`; the result is the new content of `dst`. -/
def copy (dst src : Buf) : Buf :=
  src.take dst.length ++ dst.drop src.length

/-- Writing through the sub-slice `buf[lo:]`: the bytes before `lo` are kept and the
tail is replaced by the new content of the sub-slice. -/
def writeTail (buf : Buf) (lo : Nat) (tail : Buf) : Buf :=
  buf.take lo ++ tail

/-- `binary.BigEndian.Uint16`. -/
def Uint16 (b : Buf) : Option Nat :=
  if 1 < b.length then some (b.getD 1 0 ||| b.getD 0 0 <<< 8) else none

/-- `binary.BigEndian.PutUint16`. -/
def PutUint16 (b : Buf) (v : Nat) : Option Buf :=
  if 1 < b.length then some ((b.set 0 (byte (v >>> 8))).set 1 (byte v)) else none

/-- `binary.BigEndian.Uint32`. -/
def Uint32 (b : Buf) : Option Nat :=
  if 3 < b.length then
    some (b.getD 3 0 ||| b.getD 2 0 <<< 8 ||| b.getD 1 0 <<< 16 ||| b.getD 0 0 <<< 24)
  else none

/-- `binary.BigEndian.PutUint32`. -/
def PutUint32 (b : Buf) (v : Nat) : Option Buf :=
  if 3 < b.length then
    some ((((b.set 0 (byte (v >>> 24))).set 1 (byte (v >>> 16))).set 2 (byte (v >>> 8))).set 3
      (byte v))
  else none

/-- `binary.BigEndian.Uint64`. -/
def Uint64 (b : Buf) : Option Nat :=
  if 7 < b.length then
    some (b.getD 7 0 ||| b.getD 6 0 <<< 8 ||| b.getD 5 0 <<< 16 ||| b.getD 4 0 <<< 24 |||
      b.getD 3 0 <<< 32 ||| b.getD 2 0 <<< 40 ||| b.getD 1 0 <<< 48 ||| b.getD 0 0 <<< 56)
  else none

/-- `binary.BigEndian.PutUint64`. -/
def PutUint64 (b : Buf) (v : Nat) : Option Buf :=
  if 7 < b.length then
    some ((((((((b.set 0 (byte (v >>> 56))).set 1 (byte (v >>> 48))).set 2
      (byte (v >>> 40))).set 3 (byte (v >>> 32))).set 4 (byte (v >>> 24))).set 5
      (byte (v >>> 16))).set 6 (byte (v >>> 8))).set 7 (byte v))
  else none

/-- Helper of `bigBytes`: base-256 digits of `v`, most significant first, pushed in
front of `acc`; the fuel bounds the number of digits produced. -/
def bytesAux : Nat → Nat → List Nat → List Nat
  | 0, _, acc => acc
  | fuel + 1, v, acc => if v = 0 then acc else bytesAux fuel (v / 256) (v % 256 :: acc)

/-- The big-endian bytes of a magnitude without leading zero (the empty slice
for 0).  The fuel `v` always suffices. -/
def bigBytes (v : Nat) : List Nat := bytesAux v v []

/-- `(*big.Int).Bytes`: the big-endian bytes of the absolute value of `x`. -/
def Bytes (x : Int) : List Nat := bigBytes x.natAbs

/-- The bytes read as a big-endian unsigned magnitude. -/
def magnitude (bs : List Nat) : Nat := bs.foldl (fun acc b => acc * 256 + b) 0

/-- `(*big.Int).SetBytes`: the receiver is overwritten with the magnitude read from
`buf` and returned. -/
def SetBytes (_z : Int) (buf : List Nat) : Int := Int.ofNat (magnitude buf)

/-- `getUint24`. -/
def getUint24 (b : Buf) : Option Nat :=
  if 2 < b.length then some (b.getD 0 0 ||| b.getD 1 0 <<< 8 ||| b.getD 2 0 <<< 16) else none

/-- `DecodeUint8`: the value and the new offset. -/
def DecodeUint8 (buf : Buf) (offset : Nat) : Option (Nat × Nat) :=
  if offset < buf.length then some (buf.getD offset 0, u32 (offset + 1)) else none

/-- `DecodeUint16`. -/
def DecodeUint16 (buf : Buf) (offset : Nat) : Option (Nat × Nat) :=
  match sliceFrom buf offset with
  | none => none
  | some b =>
    match Uint16 b with
    | none => none
    | some v => some (v, u32 (offset + 2))

/-- `DecodeUint24`. -/
def DecodeUint24 (buf : Buf) (offset : Nat) : Option (Nat × Nat) :=
  match sliceFrom buf offset with
  | none => none
  | some b =>
    match getUint24 b with
    | none => none
    | some v => some (v, u32 (offset + 3))

/-- `DecodeUint32`. -/
def DecodeUint32 (buf : Buf) (offset : Nat) : Option (Nat × Nat) :=
  match sliceFrom buf offset with
  | none => none
  | some b =>
    match Uint32 b with
    | none => none
    | some v => some (v, u32 (offset + 4))

/-- `DecodeUint64`. -/
def DecodeUint64 (buf : Buf) (offset : Nat) : Option (Nat × Nat) :=
  match sliceFrom buf offset with
  | none => none
  | some b =>
    match Uint64 b with
    | none => none
    | some v => some (v, u32 (offset + 8))

/-- `DecodeUintN`: the returned `*big.Int` (`none` is the nil pointer), the new offset
and the error.  A nil `dest` is replaced by a fresh `big.Int`, which is zero. -/
def DecodeUintN (buf : Buf) (offset n : Nat) (dest : Option Int) :
    Option (Option Int × Nat × Option SszError) :=
  if n % 8 ≠ 0 then some (none, 0, some (.invalidWidth n))
  else
    let dest1 : Int := match dest with
      | none => 0
      | some d => d
    match slice buf offset (u32 (offset + n / 8)) with
    | none => none
    | some bs => some (some (SetBytes dest1 bs), u32 (offset + n / 8), none)

/-- `DecodeBool`. -/
def DecodeBool (buf : Buf) (offset : Nat) : Option (Bool × Nat × Option SszError) :=
  if offset < buf.length then
    if buf.getD offset 0 = 0 then some (false, u32 (offset + 1), none)
    else if buf.getD offset 0 = 1 then some (true, u32 (offset + 1), none)
    else some (true, u32 (offset + 1), some (.invalidBoolean (buf.getD offset 0)))
  else none

/-- `DecodeBytesX`: the freshly allocated result, the new offset and the error. -/
def DecodeBytesX (buf : Buf) (offset : Nat) : Option (Buf × Nat × Option SszError) :=
  match DecodeUint32 buf offset with
  | none => none
  | some (bytelen, offset1) =>
    match slice buf offset1 (u32 (offset1 + bytelen)) with
    | none => none
    | some src => some (copy (List.replicate bytelen 0) src, u32 (offset1 + bytelen), none)

/-- `DecodeBytesN`: the destination after the call, the new offset and the error. -/
def DecodeBytesN (buf : Buf) (offset length : Nat) (dest : Buf) :
    Option (Buf × Nat × Option SszError) :=
  match slice buf offset (u32 (offset + length)) with
  | none => none
  | some src => some (copy dest src, u32 (offset + length), none)

/-- The loop of `DecodeListUint32`: `k` further elements are decoded from `offset` on
and appended to `acc`. -/
def decodeElems (buf : Buf) : Nat → Nat → List Nat → Option (List Nat × Nat)
  | 0, offset, acc => some (acc, offset)
  | k + 1, offset, acc =>
    match DecodeUint32 buf offset with
    | none => none
    | some (v, offset1) => decodeElems buf k offset1 (acc ++ [v])

/-- `DecodeListUint32`. -/
def DecodeListUint32 (buf : Buf) (offset elemSize : Nat) :
    Option (List Nat × Nat × Option SszError) :=
  match DecodeUint32 buf offset with
  | none => none
  | some (bytelen, offset1) =>
    if u32 buf.length < u32 (offset1 + bytelen) then some ([], 0, some .insufficientInput)
    else if elemSize = 0 then none
    else
      match decodeElems buf (bytelen / elemSize) offset1 [] with
      | none => none
      | some (retval, offset2) => some (retval, offset2, none)

/-- `putUint24`. -/
def putUint24 (b : Buf) (v : Nat) : Option Buf :=
  if 3 < b.length then
    some (((b.set 0 (byte v)).set 1 (byte (v >>> 8))).set 2 (byte (v >>> 16)))
  else none

/-- `EncodeUint8`: the buffer after the call, the returned offset and the error. -/
def EncodeUint8 (buf : Buf) (offset val : Nat) : Option (Buf × Nat × Option SszError) :=
  let req := u32 (offset + 1)
  if req < u32 buf.length then some (buf, 0, some (.insufficientBuffer buf.length req))
  else if offset < buf.length then some (buf.set offset (byte val), u32 (offset + 1), none)
  else none

/-- `EncodeUint16`. -/
def EncodeUint16 (buf : Buf) (offset val : Nat) : Option (Buf × Nat × Option SszError) :=
  let req := u32 (offset + 2)
  if req < u32 buf.length then some (buf, 0, some (.insufficientBuffer buf.length req))
  else
    match sliceFrom buf offset with
    | none => none
    | some b =>
      match PutUint16 b val with
      | none => none
      | some b1 => some (writeTail buf offset b1, u32 (offset + 2), none)

/-- `EncodeUint24`. -/
def EncodeUint24 (buf : Buf) (offset val : Nat) : Option (Buf × Nat × Option SszError) :=
  let req := u32 (offset + 3)
  if req < u32 buf.length then some (buf, 0, some (.insufficientBuffer buf.length req))
  else
    match sliceFrom buf offset with
    | none => none
    | some b =>
      match putUint24 b val with
      | none => none
      | some b1 => some (writeTail buf offset b1, u32 (offset + 3), none)

/-- `EncodeUint32`. -/
def EncodeUint32 (buf : Buf) (offset val : Nat) : Option (Buf × Nat × Option SszError) :=
  let req := u32 (offset + 4)
  if req < u32 buf.length then some (buf, 0, some (.insufficientBuffer buf.length req))
  else
    match sliceFrom buf offset with
    | none => none
    | some b =>
      match PutUint32 b val with
      | none => none
      | some b1 => some (writeTail buf offset b1, u32 (offset + 4), none)

/-- `EncodeUint64`. -/
def EncodeUint64 (buf : Buf) (offset val : Nat) : Option (Buf × Nat × Option SszError) :=
  let req := u32 (offset + 8)
  if req < u32 buf.length then some (buf, 0, some (.insufficientBuffer buf.length req))
  else
    match sliceFrom buf offset with
    | none => none
    | some b =>
      match PutUint64 b val with
      | none => none
      | some b1 => some (writeTail buf offset b1, u32 (offset + 8), none)

/-- `EncodeUintN`.  `diff` is a `uint32`, so the test `diff >= 0` of the source always
succeeds; the second branch is kept as written. -/
def EncodeUintN (buf : Buf) (offset n : Nat) (val : Int) :
    Option (Buf × Nat × Option SszError) :=
  if n % 8 ≠ 0 then some (buf, 0, some (.invalidWidth n))
  else
    let bigintBytes := Bytes val
    let numBytes := n / 8
    let diff := sub32 numBytes bigintBytes.length
    if diff ≥ 0 then
      match sliceFrom buf (u32 (offset + diff)) with
      | none => none
      | some dst =>
        some (writeTail buf (u32 (offset + diff)) (copy dst bigintBytes),
          u32 (offset + numBytes), none)
    else
      match sliceFrom bigintBytes (neg32 diff), sliceFrom buf offset with
      | some src, some dst =>
        some (writeTail buf offset (copy dst src), u32 (offset + numBytes), none)
      | _, _ => none

/-- `EncodeBool`. -/
def EncodeBool (buf : Buf) (offset : Nat) (val : Bool) :
    Option (Buf × Nat × Option SszError) :=
  let req := u32 (offset + 1)
  if req < u32 buf.length then some (buf, 0, some (.insufficientBuffer buf.length req))
  else if offset < buf.length then
    if val then some (buf.set offset 1, u32 (offset + 1), none)
    else some (buf.set offset 0, u32 (offset + 1), none)
  else none

/-- `EncodeBytesWithoutLengthPrefix`. -/
def EncodeBytesWithoutLengthPrefix (buf : Buf) (offset : Nat) (data : Buf) :
    Option (Buf × Nat × Option SszError) :=
  let req := u32 (offset + u32 data.length)
  if req < u32 buf.length then some (buf, 0, some (.insufficientBuffer buf.length req))
  else
    match sliceFrom buf offset with
    | none => none
    | some dst => some (writeTail buf offset (copy dst data), u32 (offset + u32 buf.length), none)

/-- `EncodeBytesWithLengthPrefix`.  The error of the inner `EncodeUint32` is dropped and
only its offset is kept. -/
def EncodeBytesWithLengthPrefix (buf : Buf) (offset : Nat) (data : Buf) :
    Option (Buf × Nat × Option SszError) :=
  let nBytes := u32 data.length
  let req := u32 (offset + nBytes)
  if req < u32 buf.length then some (buf, 0, some (.insufficientBuffer buf.length req))
  else
    match EncodeUint32 buf offset nBytes with
    | none => none
    | some (buf1, offset1, _) =>
      match sliceFrom buf1 offset1 with
      | none => none
      | some dst => some (writeTail buf1 offset1 (copy dst data), u32 (offset1 + nBytes), none)

/-- `SszTypeSize`: the size and the error. -/
def SszTypeSize (sszType : String) : Nat × Option SszError :=
  if sszType = "uint8" ∨ sszType = "bytes1" then (1, none)
  else if sszType = "uint16" ∨ sszType = "bytes2" then (2, none)
  else if sszType = "uint32" ∨ sszType = "bytes4" then (4, none)
  else if sszType = "uint64" ∨ sszType = "bytes8" then (8, none)
  else if sszType = "bytes20" then (20, none)
  else if sszType = "uint256" ∨ sszType = "bytes32" then (32, none)
  else (0, some (.unknownType sszType))

/-- The methods of the interface `SszObject` that the encoder calls: the size and the
encoder, which returns the buffer it was given after the call, an offset and an error. -/
structure SszObject where
  SszSize : Nat
  EncodeSSZ : Buf → Option (Buf × Nat × Option SszError)

/-- An interface value of type `SszObject`: the nil interface, an interface holding a
nil pointer, or an object. -/
inductive SszRef where
  | nilInterface
  | nilPointer
  | obj (o : SszObject)

/-- `SszSize`. -/
def SszSize : SszRef → Nat
  | .nilInterface => 0
  | .nilPointer => 0
  | .obj o => o.SszSize

/-- `SszEncode`.  A method call on a nil receiver panics. -/
def SszEncode (buf : Buf) (sszObj : SszRef) : Option (Buf × Nat × Option SszError) :=
  let size := SszSize sszObj
  match EncodeUint32 buf 0 size with
  | none => none
  | some (buf1, offset, some err) => some (buf1, offset, some err)
  | some (buf1, offset, none) =>
    if size > 0 then
      match sszObj, sliceFrom buf1 offset with
      | .obj o, some rest =>
        match o.EncodeSSZ rest with
        | none => none
        | some (rest1, off1, err1) => some (writeTail buf1 offset rest1, off1, err1)
      | _, _ => none
    else some (buf1, offset, none)

/-- The zero-padded big-endian representation of `v` on `k` bytes: byte `i` is the
base-256 digit of weight `256 ^ (k - 1 - i)`. -/
def bigEndianPadded (k v : Nat) : List Nat :=
  (List.range k).map fun i => v / 256 ^ (k - 1 - i) % 256

/-- The big-endian unsigned integer stored in the `w` bytes `buf[p .. p + w)`. -/
def bigEndianAt (buf : Buf) (p w : Nat) : Nat := magnitude ((buf.drop p).take w)

/-- A buffer of `2 ^ 32 + 1` bytes: zeros up to index `2 ^ 32 - 5`, the length prefix
`[0, 0, 0, 2]` at `2 ^ 32 - 5` and two bytes 9 at the indices `2 ^ 32 - 1` and `2 ^ 32`. -/
def prefixAtWrap : Buf := List.replicate 4294967291 0 ++ [0, 0, 0, 2, 9, 9]

/-- A buffer of `2 ^ 32 + 4` bytes: the length prefix `[0, 0, 0, 4]` followed by bytes 1. -/
def longList : Buf := 0 :: 0 :: 0 :: 4 :: List.replicate 4294967296 1

/-! ## Arithmetic of the fixed-width byte orders -/

theorem or_shiftLeft_eq_add (a b i : Nat) (h : b < 2 ^ i) : b ||| a <<< i = a * 2 ^ i + b := by
  rw [Nat.or_comm, Nat.shiftLeft_eq, Nat.mul_comm a, ← Nat.mul_add_lt_is_or h]

theorem be16_join (v : Nat) (h : v < 2 ^ 16) : byte v ||| byte (v >>> 8) <<< 8 = v := by
  simp only [byte, Nat.shiftRight_eq_div_pow]
  rw [or_shiftLeft_eq_add _ _ 8 (by omega)]
  omega

theorem be32_join (v : Nat) (h : v < 2 ^ 32) :
    byte v ||| byte (v >>> 8) <<< 8 ||| byte (v >>> 16) <<< 16 ||| byte (v >>> 24) <<< 24 = v := by
  simp only [byte, Nat.shiftRight_eq_div_pow]
  rw [or_shiftLeft_eq_add _ _ 8 (by omega), or_shiftLeft_eq_add _ _ 16 (by omega),
    or_shiftLeft_eq_add _ _ 24 (by omega)]
  omega

theorem be64_join (v : Nat) (h : v < 2 ^ 64) :
    byte v ||| byte (v >>> 8) <<< 8 ||| byte (v >>> 16) <<< 16 ||| byte (v >>> 24) <<< 24 |||
      byte (v >>> 32) <<< 32 ||| byte (v >>> 40) <<< 40 ||| byte (v >>> 48) <<< 48 |||
      byte (v >>> 56) <<< 56 = v := by
  simp only [byte, Nat.shiftRight_eq_div_pow]
  rw [or_shiftLeft_eq_add _ _ 8 (by omega), or_shiftLeft_eq_add _ _ 16 (by omega),
    or_shiftLeft_eq_add _ _ 24 (by omega), or_shiftLeft_eq_add _ _ 32 (by omega),
    or_shiftLeft_eq_add _ _ 40 (by omega), or_shiftLeft_eq_add _ _ 48 (by omega),
    or_shiftLeft_eq_add _ _ 56 (by omega)]
  omega

theorem Uint16_PutUint16 (b b1 : Buf) (v : Nat) (hv : v < 2 ^ 16)
    (h : PutUint16 b v = some b1) : Uint16 b1 = some v := by
  unfold PutUint16 at h
  split at h
  · cases h
    match b with
    | a0 :: a1 :: rest =>
      simp only [Uint16, List.set, List.getD_cons_zero, List.getD_cons_succ, List.length_cons]
      rw [if_pos (by omega), be16_join v hv]
    | [_] => simp at *
    | [] => simp at *
  · cases h

theorem Uint32_PutUint32 (b b1 : Buf) (v : Nat) (hv : v < 2 ^ 32)
    (h : PutUint32 b v = some b1) : Uint32 b1 = some v := by
  unfold PutUint32 at h
  split at h
  · cases h
    match b with
    | a0 :: a1 :: a2 :: a3 :: rest =>
      simp only [Uint32, List.set, List.getD_cons_zero, List.getD_cons_succ, List.length_cons]
      rw [if_pos (by omega), be32_join v hv]
    | [_, _, _] => simp at *
    | [_, _] => simp at *
    | [_] => simp at *
    | [] => simp at *
  · cases h

theorem Uint64_PutUint64 (b b1 : Buf) (v : Nat) (hv : v < 2 ^ 64)
    (h : PutUint64 b v = some b1) : Uint64 b1 = some v := by
  unfold PutUint64 at h
  split at h
  · cases h
    match b with
    | a0 :: a1 :: a2 :: a3 :: a4 :: a5 :: a6 :: a7 :: rest =>
      simp only [Uint64, List.set, List.getD_cons_zero, List.getD_cons_succ, List.length_cons]
      rw [if_pos (by omega), be64_join v hv]
    | [_, _, _, _, _, _, _] => simp at *
    | [_, _, _, _, _, _] => simp at *
    | [_, _, _, _, _] => simp at *
    | [_, _, _, _] => simp at *
    | [_, _, _] => simp at *
    | [_, _] => simp at *
    | [_] => simp at *
    | [] => simp at *
  · cases h

theorem sliceFrom_writeTail (buf b b1 : Buf) (offset : Nat)
    (h : sliceFrom buf offset = some b) : sliceFrom (writeTail buf offset b1) offset = some b1 := by
  unfold sliceFrom at h
  split at h
  · rename_i hle
    have hlen : (List.take offset buf).length = offset := by
      rw [List.length_take]; omega
    unfold sliceFrom writeTail
    rw [if_pos (by rw [List.length_append]; omega)]
    rw [List.drop_append_of_le_length (by omega), List.drop_of_length_le (by omega)]
    simp
  · cases h


theorem round_trip_uint8 (buf buf1 : Buf) (offset v o : Nat) (hv : v < 2 ^ 8)
    (h : EncodeUint8 buf offset v = some (buf1, o, none)) :
    DecodeUint8 buf1 offset = some (v, o) := by
  unfold EncodeUint8 at h
  simp only at h
  split at h
  · simp at h
  · split at h
    · rename_i hlt
      simp only [Option.some.injEq, Prod.mk.injEq, and_true] at h
      obtain ⟨rfl, rfl⟩ := h
      unfold DecodeUint8
      rw [if_pos (by simpa using hlt)]
      have hb : byte v = v := Nat.mod_eq_of_lt (by omega)
      simp [List.getD_eq_getElem?_getD, List.getElem?_set, hlt, hb]
    · cases h

theorem round_trip_uint16 (buf buf1 : Buf) (offset v o : Nat) (hv : v < 2 ^ 16)
    (h : EncodeUint16 buf offset v = some (buf1, o, none)) :
    DecodeUint16 buf1 offset = some (v, o) := by
  unfold EncodeUint16 at h
  simp only at h
  split at h
  · simp at h
  · split at h
    · cases h
    · rename_i b hb
      split at h
      · cases h
      · rename_i b1 hb1
        simp only [Option.some.injEq, Prod.mk.injEq, and_true] at h
        obtain ⟨rfl, rfl⟩ := h
        simp only [DecodeUint16, sliceFrom_writeTail buf b b1 offset hb,
          Uint16_PutUint16 b b1 v hv hb1]

theorem round_trip_uint32 (buf buf1 : Buf) (offset v o : Nat) (hv : v < 2 ^ 32)
    (h : EncodeUint32 buf offset v = some (buf1, o, none)) :
    DecodeUint32 buf1 offset = some (v, o) := by
  unfold EncodeUint32 at h
  simp only at h
  split at h
  · simp at h
  · split at h
    · cases h
    · rename_i b hb
      split at h
      · cases h
      · rename_i b1 hb1
        simp only [Option.some.injEq, Prod.mk.injEq, and_true] at h
        obtain ⟨rfl, rfl⟩ := h
        simp only [DecodeUint32, sliceFrom_writeTail buf b b1 offset hb,
          Uint32_PutUint32 b b1 v hv hb1]

theorem round_trip_uint64 (buf buf1 : Buf) (offset v o : Nat) (hv : v < 2 ^ 64)
    (h : EncodeUint64 buf offset v = some (buf1, o, none)) :
    DecodeUint64 buf1 offset = some (v, o) := by
  unfold EncodeUint64 at h
  simp only at h
  split at h
  · simp at h
  · split at h
    · cases h
    · rename_i b hb
      split at h
      · cases h
      · rename_i b1 hb1
        simp only [Option.some.injEq, Prod.mk.injEq, and_true] at h
        obtain ⟨rfl, rfl⟩ := h
        simp only [DecodeUint64, sliceFrom_writeTail buf b b1 offset hb,
          Uint64_PutUint64 b b1 v hv hb1]

theorem round_trip_bool (buf buf1 : Buf) (offset o : Nat) (v : Bool)
    (h : EncodeBool buf offset v = some (buf1, o, none)) :
    DecodeBool buf1 offset = some (v, o, none) := by
  unfold EncodeBool at h
  simp only at h
  split at h
  · simp at h
  · split at h
    · rename_i hlt
      cases v
      · simp only [Bool.false_eq_true, if_false, Option.some.injEq, Prod.mk.injEq, and_true] at h
        obtain ⟨rfl, rfl⟩ := h
        unfold DecodeBool
        rw [if_pos (by simpa using hlt)]
        simp [List.getD_eq_getElem?_getD, List.getElem?_set, hlt]
      · simp only [if_true, Option.some.injEq, Prod.mk.injEq, and_true] at h
        obtain ⟨rfl, rfl⟩ := h
        unfold DecodeBool
        rw [if_pos (by simpa using hlt)]
        simp [List.getD_eq_getElem?_getD, List.getElem?_set, hlt]
    · cases h

/-! ## The bytes of a big integer -/

theorem bytesAux_fuel (f1 : Nat) : ∀ (f2 v : Nat) (acc : List Nat), v ≤ f1 → v ≤ f2 →
    bytesAux f1 v acc = bytesAux f2 v acc := by
  induction f1 with
  | zero =>
    intro f2 v acc h1 _
    have hv : v = 0 := by omega
    subst hv
    cases f2 <;> simp [bytesAux]
  | succ f1 ih =>
    intro f2 v acc h1 h2
    by_cases hv : v = 0
    · subst hv
      cases f2 <;> simp [bytesAux]
    · cases f2 with
      | zero => omega
      | succ f2 =>
        simp only [bytesAux, if_neg hv]
        exact ih f2 (v / 256) _ (by omega) (by omega)

theorem bytesAux_acc (fuel : Nat) : ∀ (v : Nat) (acc : List Nat),
    bytesAux fuel v acc = bytesAux fuel v [] ++ acc := by
  induction fuel with
  | zero => intro v acc; simp [bytesAux]
  | succ fuel ih =>
    intro v acc
    by_cases hv : v = 0
    · simp [bytesAux, hv]
    · simp only [bytesAux, if_neg hv]
      rw [ih (v / 256) (v % 256 :: acc), ih (v / 256) [v % 256]]
      simp

theorem bigBytes_zero : bigBytes 0 = [] := rfl

theorem bigBytes_pos (v : Nat) (hv : v ≠ 0) : bigBytes v = bigBytes (v / 256) ++ [v % 256] := by
  unfold bigBytes
  obtain ⟨w, rfl⟩ : ∃ w, v = w + 1 := ⟨v - 1, by omega⟩
  simp only [bytesAux, if_neg hv]
  rw [bytesAux_acc, bytesAux_fuel w ((w + 1) / 256) ((w + 1) / 256) [] (by omega) (le_refl _)]

theorem magnitude_append_singleton (bs : List Nat) (d : Nat) :
    magnitude (bs ++ [d]) = magnitude bs * 256 + d := by
  simp [magnitude, List.foldl_append]

theorem magnitude_bigBytes (v : Nat) : magnitude (bigBytes v) = v := by
  induction v using Nat.strong_induction_on with
  | _ v ih =>
    by_cases hv : v = 0
    · subst hv; rfl
    · rw [bigBytes_pos v hv, magnitude_append_singleton, ih (v / 256) (by omega)]
      omega

theorem bigBytes_length_le (k : Nat) : ∀ v, v < 256 ^ k → (bigBytes v).length ≤ k := by
  induction k with
  | zero => intro v hv; have : v = 0 := by simpa using hv
            subst this; simp [bigBytes_zero]
  | succ k ih =>
    intro v hv
    by_cases h0 : v = 0
    · subst h0; simp [bigBytes_zero]
    · rw [bigBytes_pos v h0, List.length_append, List.length_singleton]
      have : v / 256 < 256 ^ k := by
        rw [Nat.div_lt_iff_lt_mul (by norm_num)]
        rw [pow_succ] at hv; exact hv
      have := ih _ this
      omega

theorem magnitude_replicate_zero_append (k : Nat) (bs : List Nat) :
    magnitude (List.replicate k 0 ++ bs) = magnitude bs := by
  induction k with
  | zero => simp
  | succ k ih =>
    rw [List.replicate_succ, List.cons_append]
    unfold magnitude at ih ⊢
    simpa using ih

theorem bigEndianPadded_succ (k v : Nat) :
    bigEndianPadded (k + 1) v = bigEndianPadded k (v / 256) ++ [v % 256] := by
  unfold bigEndianPadded
  rw [List.range_succ, List.map_append]
  congr 1
  · apply List.map_congr_left
    intro i hi
    have hi : i < k := List.mem_range.mp hi
    have e : k + 1 - 1 - i = (k - 1 - i) + 1 := by omega
    rw [e, pow_succ, Nat.div_div_eq_div_mul, Nat.mul_comm]
  · simp

theorem bigEndianPadded_eq (k : Nat) : ∀ v, v < 256 ^ k →
    bigEndianPadded k v = List.replicate (k - (bigBytes v).length) 0 ++ bigBytes v := by
  induction k with
  | zero =>
    intro v hv
    have : v = 0 := by simpa using hv
    subst this; simp [bigBytes_zero, bigEndianPadded]
  | succ k ih =>
    intro v hv
    have hdiv : v / 256 < 256 ^ k := by
      rw [Nat.div_lt_iff_lt_mul (by norm_num)]
      rw [pow_succ] at hv; exact hv
    rw [bigEndianPadded_succ, ih _ hdiv]
    by_cases h0 : v = 0
    · subst h0
      simp only [Nat.zero_div, bigBytes_zero, List.length_nil, Nat.sub_zero, List.append_nil,
        Nat.zero_mod]
      rw [List.replicate_succ']
    · rw [bigBytes_pos v h0, List.length_append, List.length_singleton, List.append_assoc]
      have := bigBytes_length_le k _ hdiv
      have e : k + 1 - ((bigBytes (v / 256)).length + 1) = k - (bigBytes (v / 256)).length := by
        omega
      rw [e]


theorem copy_of_le (dst src : Buf) (h : src.length ≤ dst.length) :
    copy dst src = src ++ dst.drop src.length := by
  unfold copy
  rw [List.take_of_length_le h]

theorem Bytes_length_le (n : Nat) (v : Int) (hn8 : n % 8 = 0) (hv0 : 0 ≤ v)
    (hvn : v < 2 ^ n) : (Bytes v).length ≤ n / 8 := by
  obtain ⟨m, rfl⟩ := Int.eq_ofNat_of_zero_le hv0
  have hm : m < 2 ^ n := by exact_mod_cast hvn
  have e : 2 ^ n = 256 ^ (n / 8) := by
    have h8 : n = 8 * (n / 8) := by omega
    conv_lhs => rw [h8, pow_mul]
    norm_num
  rw [e] at hm
  simpa [Bytes] using bigBytes_length_le (n / 8) m hm

theorem magnitude_Bytes (v : Int) (hv0 : 0 ≤ v) : Int.ofNat (magnitude (Bytes v)) = v := by
  obtain ⟨m, rfl⟩ := Int.eq_ofNat_of_zero_le hv0
  simp [Bytes, magnitude_bigBytes]

theorem EncodeUintN_fits (buf : Buf) (offset n : Nat) (v : Int) (hn8 : n % 8 = 0)
    (hv0 : 0 ≤ v) (hvn : v < 2 ^ n) (hfit : offset + n / 8 ≤ buf.length)
    (hnw : offset + n / 8 < 2 ^ 32) :
    EncodeUintN buf offset n v =
      some (buf.take (offset + (n / 8 - (Bytes v).length)) ++
        (Bytes v ++ buf.drop (offset + n / 8)), offset + n / 8, none) := by
  have hL := Bytes_length_le n v hn8 hv0 hvn
  have hdiff : sub32 (n / 8) (Bytes v).length = n / 8 - (Bytes v).length := by
    unfold sub32 u32; omega
  have hoff : u32 (offset + (n / 8 - (Bytes v).length)) = offset + (n / 8 - (Bytes v).length) := by
    unfold u32; omega
  have hret : u32 (offset + n / 8) = offset + n / 8 := by
    unfold u32; omega
  unfold EncodeUintN
  rw [if_neg (by omega)]
  simp only [hdiff, hoff, hret, ge_iff_le, Nat.zero_le, if_true]
  unfold sliceFrom
  rw [if_pos (by omega)]
  simp only [writeTail]
  rw [copy_of_le _ _ (by rw [List.length_drop]; omega), List.drop_drop]
  have e : (Bytes v).length + (offset + (n / 8 - (Bytes v).length)) = offset + n / 8 := by omega
  have e2 : offset + (n / 8 - (Bytes v).length) + (Bytes v).length = offset + n / 8 := by omega
  first
    | rw [e]
    | rw [e2]

theorem slice_EncodeUintN_result (buf : Buf) (offset k : Nat) (bs : Buf) (hL : bs.length ≤ k)
    (hfit : offset + k ≤ buf.length) :
    slice (buf.take (offset + (k - bs.length)) ++ (bs ++ buf.drop (offset + k))) offset
      (offset + k) = some ((buf.drop offset).take (k - bs.length) ++ bs) := by
  have h1 : (List.take (offset + (k - bs.length)) buf).length = offset + (k - bs.length) := by
    rw [List.length_take]; omega
  unfold slice
  rw [if_pos (by simp only [List.length_append, h1, List.length_drop]; omega)]
  rw [← List.append_assoc, List.take_append_of_le_length (by
    simp only [List.length_append, h1]; omega)]
  rw [List.take_of_length_le (by simp only [List.length_append, h1]; omega)]
  rw [List.drop_append_of_le_length (by omega)]
  congr 2
  rw [List.drop_take]
  congr 1
  omega

theorem slice_add (buf : Buf) (lo d : Nat) (h : lo + d ≤ buf.length) :
    slice buf lo (lo + d) = some ((buf.drop lo).take d) := by
  unfold slice
  rw [if_pos ⟨by omega, h⟩, List.drop_take]
  congr 3
  omega

theorem toNat_eq_natAbs (v : Int) (hv0 : 0 ≤ v) : v.toNat = v.natAbs := by
  obtain ⟨m, rfl⟩ := Int.eq_ofNat_of_zero_le hv0
  simp

theorem natAbs_lt_pow (n : Nat) (v : Int) (hn8 : n % 8 = 0) (hv0 : 0 ≤ v) (hvn : v < 2 ^ n) :
    v.natAbs < 256 ^ (n / 8) := by
  obtain ⟨m, rfl⟩ := Int.eq_ofNat_of_zero_le hv0
  have hm : m < 2 ^ n := by exact_mod_cast hvn
  have e : 2 ^ n = 256 ^ (n / 8) := by
    have h8 : n = 8 * (n / 8) := by omega
    conv_lhs => rw [h8, pow_mul]
    norm_num
  rw [e] at hm
  simpa using hm

/-- With `offset = 2 ^ 32 - 1` the sum `offset + diff` wraps around to 0, so the bytes of
the value land at the start of the buffer. -/
theorem EncodeUintN_wrap (buf : Buf) :
    EncodeUintN buf 4294967295 16 1 = some (copy buf [1], 1, none) := by
  have hB : Bytes 1 = [1] := by decide
  have hd : sub32 (16 / 8) [1].length = 1 := by decide
  have ho : u32 (4294967295 + 1) = 0 := by decide
  have hr : u32 (4294967295 + 16 / 8) = 1 := by decide
  unfold EncodeUintN
  rw [if_neg (by decide)]
  simp only [hB, hd, ho, hr, sliceFrom, writeTail, ge_iff_le, Nat.zero_le, if_true,
    List.take_zero, List.drop_zero, List.nil_append]

/-- With `offset = 2 ^ 32 - 1` the upper bound `offset + n/8` of the slice expression wraps
around below its lower bound, so the decoder panics. -/
theorem DecodeUintN_wrap (buf1 : Buf) (dest : Option Int) :
    DecodeUintN buf1 4294967295 16 dest = none := by
  have hr : u32 (4294967295 + 16 / 8) = 1 := by decide
  unfold DecodeUintN
  rw [if_neg (by decide)]
  simp only [hr, slice]
  rw [if_neg (by omega)]

theorem wrap_field_untouched (buf : Buf) (hlen : 1 ≤ buf.length)
    (h0 : buf[4294967296]? = some 0) :
    slice (copy buf [1]) 4294967295 4294967297 ≠ some [0, 1] := by
  intro h
  unfold slice at h
  split at h
  · have h1 := congrArg (fun l => l[1]?) (Option.some.inj h)
    simp only [List.getElem?_drop, List.getElem?_take] at h1
    rw [if_pos (by omega), copy_of_le buf [1] hlen,
      List.getElem?_append_right (by simp), List.getElem?_drop] at h1
    simp only [List.length_singleton] at h1
    have e : 1 + (4294967295 + 1 - 1) = 4294967296 := by omega
    rw [e, h0] at h1
    simp at h1
  · cases h

/-! ## Type sizes, exact fits and length prefixes -/

theorem SszTypeSize_unknown (s : String)
    (h : s ∉ ["uint8", "bytes1", "uint16", "bytes2", "uint32", "bytes4", "uint64", "bytes8",
      "bytes20", "uint256", "bytes32"]) : SszTypeSize s = (0, some (.unknownType s)) := by
  simp only [List.mem_cons, List.mem_singleton, List.not_mem_nil, or_false, not_or] at h
  obtain ⟨h1, h2, h3, h4, h5, h6, h7, h8, h9, h10, h11⟩ := h
  simp [SszTypeSize, h1, h2, h3, h4, h5, h6, h7, h8, h9, h10, h11]

theorem PutUint16_length (b b1 : Buf) (v : Nat) (h : PutUint16 b v = some b1) :
    2 ≤ b.length := by
  unfold PutUint16 at h
  split at h
  · omega
  · cases h

theorem PutUint32_length (b b1 : Buf) (v : Nat) (h : PutUint32 b v = some b1) :
    4 ≤ b.length := by
  unfold PutUint32 at h
  split at h
  · omega
  · cases h

theorem PutUint64_length (b b1 : Buf) (v : Nat) (h : PutUint64 b v = some b1) :
    8 ≤ b.length := by
  unfold PutUint64 at h
  split at h
  · omega
  · cases h

theorem sliceFrom_some (buf b : Buf) (lo : Nat) (h : sliceFrom buf lo = some b) :
    lo ≤ buf.length ∧ b = buf.drop lo := by
  unfold sliceFrom at h
  split at h
  · exact ⟨by assumption, (Option.some.inj h).symm⟩
  · cases h

theorem exact_fit_uint8 (buf buf1 : Buf) (offset v o : Nat) (e : Option SszError)
    (hlen : buf.length < 2 ^ 32) (h : EncodeUint8 buf offset v = some (buf1, o, e)) :
    (e = none → offset + 1 = buf.length) ∧ (e ≠ none → o = 0 ∧ buf1 = buf) := by
  unfold EncodeUint8 u32 at h
  simp only at h
  split at h
  · simp only [Option.some.injEq, Prod.mk.injEq] at h
    obtain ⟨rfl, rfl, rfl⟩ := h
    simp
  · split at h
    · simp only [Option.some.injEq, Prod.mk.injEq] at h
      obtain ⟨-, -, rfl⟩ := h
      refine ⟨fun _ => ?_, fun hne => absurd rfl hne⟩
      omega
    · cases h

theorem exact_fit_bool (buf buf1 : Buf) (offset o : Nat) (v : Bool) (e : Option SszError)
    (hlen : buf.length < 2 ^ 32) (h : EncodeBool buf offset v = some (buf1, o, e)) :
    (e = none → offset + 1 = buf.length) ∧ (e ≠ none → o = 0 ∧ buf1 = buf) := by
  unfold EncodeBool u32 at h
  simp only at h
  split at h
  · simp only [Option.some.injEq, Prod.mk.injEq] at h
    obtain ⟨rfl, rfl, rfl⟩ := h
    simp
  · split at h
    · have he : e = none := by
        cases v <;> simp only [Bool.false_eq_true, if_false, if_true, Option.some.injEq,
          Prod.mk.injEq] at h <;> exact h.2.2.symm
      subst he
      refine ⟨fun _ => ?_, fun hne => absurd rfl hne⟩
      omega
    · cases h

theorem exact_fit_uint16 (buf buf1 : Buf) (offset v o : Nat) (e : Option SszError)
    (hlen : buf.length < 2 ^ 32) (h : EncodeUint16 buf offset v = some (buf1, o, e)) :
    (e = none → offset + 2 = buf.length) ∧ (e ≠ none → o = 0 ∧ buf1 = buf) := by
  unfold EncodeUint16 u32 at h
  simp only at h
  split at h
  · simp only [Option.some.injEq, Prod.mk.injEq] at h
    obtain ⟨rfl, rfl, rfl⟩ := h
    simp
  · split at h
    · cases h
    · rename_i b hb
      split at h
      · cases h
      · rename_i b1 hb1
        simp only [Option.some.injEq, Prod.mk.injEq] at h
        obtain ⟨-, -, rfl⟩ := h
        obtain ⟨hle, rfl⟩ := sliceFrom_some buf b offset hb
        have := PutUint16_length _ _ _ hb1
        rw [List.length_drop] at this
        refine ⟨fun _ => ?_, fun hne => absurd rfl hne⟩
        omega

theorem exact_fit_uint32 (buf buf1 : Buf) (offset v o : Nat) (e : Option SszError)
    (hlen : buf.length < 2 ^ 32) (h : EncodeUint32 buf offset v = some (buf1, o, e)) :
    (e = none → offset + 4 = buf.length) ∧ (e ≠ none → o = 0 ∧ buf1 = buf) := by
  unfold EncodeUint32 u32 at h
  simp only at h
  split at h
  · simp only [Option.some.injEq, Prod.mk.injEq] at h
    obtain ⟨rfl, rfl, rfl⟩ := h
    simp
  · split at h
    · cases h
    · rename_i b hb
      split at h
      · cases h
      · rename_i b1 hb1
        simp only [Option.some.injEq, Prod.mk.injEq] at h
        obtain ⟨-, -, rfl⟩ := h
        obtain ⟨hle, rfl⟩ := sliceFrom_some buf b offset hb
        have := PutUint32_length _ _ _ hb1
        rw [List.length_drop] at this
        refine ⟨fun _ => ?_, fun hne => absurd rfl hne⟩
        omega

theorem exact_fit_uint64 (buf buf1 : Buf) (offset v o : Nat) (e : Option SszError)
    (hlen : buf.length < 2 ^ 32) (h : EncodeUint64 buf offset v = some (buf1, o, e)) :
    (e = none → offset + 8 = buf.length) ∧ (e ≠ none → o = 0 ∧ buf1 = buf) := by
  unfold EncodeUint64 u32 at h
  simp only at h
  split at h
  · simp only [Option.some.injEq, Prod.mk.injEq] at h
    obtain ⟨rfl, rfl, rfl⟩ := h
    simp
  · split at h
    · cases h
    · rename_i b hb
      split at h
      · cases h
      · rename_i b1 hb1
        simp only [Option.some.injEq, Prod.mk.injEq] at h
        obtain ⟨-, -, rfl⟩ := h
        obtain ⟨hle, rfl⟩ := sliceFrom_some buf b offset hb
        have := PutUint64_length _ _ _ hb1
        rw [List.length_drop] at this
        refine ⟨fun _ => ?_, fun hne => absurd rfl hne⟩
        omega

theorem PutUint32_four (b b1 : Buf) (v : Nat) (hb : b.length = 4)
    (h : PutUint32 b v = some b1) :
    b1 = [byte (v >>> 24), byte (v >>> 16), byte (v >>> 8), byte v] := by
  rcases b with _ | ⟨a0, _ | ⟨a1, _ | ⟨a2, _ | ⟨a3, _ | ⟨a4, t⟩⟩⟩⟩⟩ <;>
    simp only [List.length_cons, List.length_nil] at hb <;> try omega
  simp only [PutUint32, List.length_cons, List.length_nil, List.set] at h
  rw [if_pos (by omega)] at h
  exact (Option.some.inj h).symm

theorem slice_append_mid (a b c : Buf) :
    slice (a ++ (b ++ c)) a.length (a.length + b.length) = some b := by
  unfold slice
  rw [if_pos ⟨by omega, by simp only [List.length_append]; omega⟩]
  rw [← List.append_assoc, List.take_append_of_le_length (by simp),
    List.take_of_length_le (by simp), List.drop_append_of_le_length (by omega),
    List.drop_length, List.nil_append]

/-- For a width that is a multiple of 8 and a value that fits, `EncodeUintN` puts the bytes
of the value at the end of the field and returns the offset of the end of the field. -/
theorem EncodeUintN_right_aligned (buf : Buf) (offset n : Nat) (v : Int)
    (hn8 : n % 8 = 0) (hv0 : 0 ≤ v) (hvn : v < 2 ^ n) (hfit : offset + n / 8 ≤ buf.length)
    (hnw : offset + n / 8 < 2 ^ 32) :
    ∃ buf1, EncodeUintN buf offset n v = some (buf1, offset + n / 8, none) ∧
      slice buf1 (offset + n / 8 - (Bytes v).length) (offset + n / 8) = some (Bytes v) := by
  have hL := Bytes_length_le n v hn8 hv0 hvn
  refine ⟨_, EncodeUintN_fits buf offset n v hn8 hv0 hvn hfit hnw, ?_⟩
  have h1 : (List.take (offset + (n / 8 - (Bytes v).length)) buf).length =
      offset + n / 8 - (Bytes v).length := by
    rw [List.length_take]; omega
  have h2 : offset + n / 8 =
      (List.take (offset + (n / 8 - (Bytes v).length)) buf).length + (Bytes v).length := by
    omega
  have key := slice_append_mid (List.take (offset + (n / 8 - (Bytes v).length)) buf) (Bytes v)
    (List.drop (offset + n / 8) buf)
  rw [← h2, h1] at key
  exact key

/-! ## Length-prefixed reads -/

theorem Uint32_eq_magnitude (b : Buf) (h4 : 4 ≤ b.length) (hwf : ∀ x ∈ b, x < 256) :
    Uint32 b = some (magnitude (b.take 4)) := by
  rcases b with _ | ⟨a0, _ | ⟨a1, _ | ⟨a2, _ | ⟨a3, t⟩⟩⟩⟩ <;>
    simp only [List.length_cons, List.length_nil] at h4 <;> try omega
  have h0 : a0 < 256 := hwf a0 (by simp)
  have h1 : a1 < 256 := hwf a1 (by simp)
  have h2 : a2 < 256 := hwf a2 (by simp)
  have h3 : a3 < 256 := hwf a3 (by simp)
  simp only [Uint32, List.length_cons, List.getD_cons_zero, List.getD_cons_succ,
    List.take_succ_cons, List.take_zero, magnitude, List.foldl_cons, List.foldl_nil]
  rw [if_pos (by omega), or_shiftLeft_eq_add _ _ 8 (by omega),
    or_shiftLeft_eq_add _ _ 16 (by omega), or_shiftLeft_eq_add _ _ 24 (by omega)]
  simp only [Option.some.injEq]
  omega

theorem DecodeUint32_eq (buf : Buf) (offset : Nat) (hwf : ∀ x ∈ buf, x < 256)
    (hfit : offset + 4 ≤ buf.length) :
    DecodeUint32 buf offset = some (bigEndianAt buf offset 4, u32 (offset + 4)) := by
  have hU := Uint32_eq_magnitude (buf.drop offset) (by rw [List.length_drop]; omega)
    (fun x hx => hwf x (List.mem_of_mem_drop hx))
  unfold DecodeUint32 sliceFrom
  rw [if_pos (by omega)]
  simp only [hU, bigEndianAt]

theorem decodeElems_eq (buf : Buf) (hwf : ∀ x ∈ buf, x < 256) :
    ∀ (k p : Nat) (acc : List Nat), p + 4 * k ≤ buf.length → p + 4 * k < 2 ^ 32 →
      decodeElems buf k p acc =
        some (acc ++ (List.range k).map (fun i => bigEndianAt buf (p + 4 * i) 4), p + 4 * k) := by
  intro k
  induction k with
  | zero => intro p acc _ _; simp [decodeElems]
  | succ k ih =>
    intro p acc h1 h2
    have hp : u32 (p + 4) = p + 4 := Nat.mod_eq_of_lt (by omega)
    simp only [decodeElems, DecodeUint32_eq buf p hwf (by omega), hp]
    rw [ih (p + 4) (acc ++ [bigEndianAt buf p 4]) (by omega) (by omega)]
    rw [List.range_succ_eq_map, List.map_cons, List.map_map, List.append_assoc]
    have e : p + 4 + 4 * k = p + 4 * (k + 1) := by omega
    rw [e]
    have hmap : List.map (fun i => bigEndianAt buf (p + 4 + 4 * i) 4) (List.range k) =
        List.map ((fun i => bigEndianAt buf (p + 4 * i) 4) ∘ Nat.succ) (List.range k) := by
      apply List.map_congr_left
      intro i _
      have e2 : p + 4 + 4 * i = p + 4 * (i + 1) := by omega
      simp only [Function.comp, Nat.succ_eq_add_one, e2]
    rw [hmap, List.singleton_append, Nat.mul_zero]
    rfl

theorem DecodeListUint32_ok (buf : Buf) (offset elemSize : Nat) (hwf : ∀ x ∈ buf, x < 256)
    (hlen : buf.length < 2 ^ 32) (hfit : offset + 4 ≤ buf.length)
    (hL : offset + 4 + bigEndianAt buf offset 4 ≤ buf.length) (he : 1 ≤ elemSize)
    (hread : offset + 4 + 4 * (bigEndianAt buf offset 4 / elemSize) ≤ buf.length) :
    DecodeListUint32 buf offset elemSize =
      some ((List.range (bigEndianAt buf offset 4 / elemSize)).map
        (fun i => bigEndianAt buf (offset + 4 + 4 * i) 4),
        offset + 4 + 4 * (bigEndianAt buf offset 4 / elemSize), none) := by
  have hu : u32 buf.length = buf.length := Nat.mod_eq_of_lt hlen
  have h4 : u32 (offset + 4) = offset + 4 := Nat.mod_eq_of_lt (by omega)
  have hs : u32 (offset + 4 + bigEndianAt buf offset 4) = offset + 4 + bigEndianAt buf offset 4 :=
    Nat.mod_eq_of_lt (by omega)
  unfold DecodeListUint32
  simp only [DecodeUint32_eq buf offset hwf hfit, h4, hu, hs]
  rw [if_neg (by omega), if_neg (by omega)]
  simp only [decodeElems_eq buf hwf _ _ [] hread (by omega), List.nil_append]

theorem div_mul_le_of_four_le (L e : Nat) (he : 4 ≤ e) : 4 * (L / e) ≤ L := by
  calc 4 * (L / e) ≤ e * (L / e) := Nat.mul_le_mul_right _ he
    _ ≤ L := Nat.mul_div_le L e

theorem map_range_length_getElem (f : Nat → Nat) (k : Nat) :
    ((List.range k).map f).length = k ∧ ∀ i, i < k → ((List.range k).map f)[i]? = some (f i) := by
  refine ⟨by simp, fun i hi => ?_⟩
  rw [List.getElem?_map, List.getElem?_range hi]
  rfl

theorem copy_replicate (src : Buf) (n : Nat) (h : src.length = n) :
    copy (List.replicate n 0) src = src := by
  subst h
  unfold copy
  rw [List.length_replicate, List.take_length, List.drop_of_length_le (by simp),
    List.append_nil]

theorem DecodeBytesX_wrap (buf : Buf) (hd : buf.drop 4294967291 = [0, 0, 0, 2, 9, 9])
    (hle : 4294967291 ≤ buf.length) : DecodeBytesX buf 4294967291 = none := by
  have hU : Uint32 [0, 0, 0, 2, 9, 9] = some 2 := by decide
  have h4 : u32 (4294967291 + 4) = 4294967295 := by decide
  have h5 : u32 (4294967295 + 2) = 1 := by decide
  unfold DecodeBytesX DecodeUint32 sliceFrom
  rw [if_pos hle, hd]
  simp only [hU, h4, h5, slice]
  rw [if_neg (by omega)]

theorem prefixAtWrap_length : prefixAtWrap.length = 4294967297 := by
  have h1 : (List.replicate 4294967291 0).length = 4294967291 := List.length_replicate _ _
  have h2 : prefixAtWrap.length =
      (List.replicate 4294967291 0).length + [0, 0, 0, 2, 9, 9].length := by
    unfold prefixAtWrap
    exact List.length_append _ _
  have h3 : [0, 0, 0, 2, 9, 9].length = 6 := rfl
  omega

theorem prefixAtWrap_drop : prefixAtWrap.drop 4294967291 = [0, 0, 0, 2, 9, 9] :=
  List.drop_left' (List.length_replicate _ _)

theorem DecodeListUint32_long (rest : Buf) (elemSize : Nat) (hr : u32 (rest.length + 4) = 4) :
    DecodeListUint32 (0 :: 0 :: 0 :: 4 :: rest) 0 elemSize =
      some ([], 0, some .insufficientInput) := by
  have hU : Uint32 (0 :: 0 :: 0 :: 4 :: rest) = some 4 := by
    simp [Uint32]
  have h4 : u32 (0 + 4) = 4 := by decide
  have h8 : u32 (4 + 4) = 8 := by decide
  have hl : (0 :: 0 :: 0 :: 4 :: rest).length = rest.length + 4 := by simp
  unfold DecodeListUint32 DecodeUint32 sliceFrom
  rw [if_pos (Nat.zero_le _)]
  simp only [List.drop_zero, hU, h4, h8, hl, hr]
  rw [if_pos (by omega)]

/-! ## Claims -/

/-- C1 (the code departs from the claim). With room to spare, `offset + width < len(buf)`,
each of `EncodeUint8`, `EncodeUint16`, `EncodeUint32`, `EncodeUint64` and `EncodeBool` returns
the insufficient-buffer error and offset 0; with too little room, `offset + width > len(buf)`,
each of them panics and returns no error. -/
theorem C1_bounds_check_inverted :
    (EncodeUint8 (List.replicate 16 0) 0 0x9a =
        some (List.replicate 16 0, 0, some (.insufficientBuffer 16 1)) ∧
      EncodeUint16 (List.replicate 16 0) 0 0x789a =
        some (List.replicate 16 0, 0, some (.insufficientBuffer 16 2)) ∧
      EncodeUint32 (List.replicate 16 0) 0 0x3456789a =
        some (List.replicate 16 0, 0, some (.insufficientBuffer 16 4)) ∧
      EncodeUint64 (List.replicate 16 0) 0 0x3456789a =
        some (List.replicate 16 0, 0, some (.insufficientBuffer 16 8)) ∧
      EncodeBool (List.replicate 16 0) 0 true =
        some (List.replicate 16 0, 0, some (.insufficientBuffer 16 1))) ∧
    (EncodeUint8 [0] 1 0x9a = none ∧
      EncodeUint16 [0] 0 0x789a = none ∧
      EncodeUint32 [0, 0, 0] 0 0x3456789a = none ∧
      EncodeUint64 [0, 0, 0, 0] 0 0x3456789a = none ∧
      EncodeBool [0] 1 true = none) :=
  ⟨⟨by decide, by decide, by decide, by decide, by decide⟩,
   ⟨by decide, by decide, by decide, by decide, by decide⟩⟩

/-- C2 (the code departs from the claim). On the input of `TestEncodeUint32`, a zeroed
100-byte buffer, offset 0 and the value `0x3456789a`, `EncodeUint32` returns the
insufficient-buffer error and the first four bytes stay zero. -/
theorem C2_EncodeUint32_test_input :
    ∃ buf1, EncodeUint32 (List.replicate 100 0) 0 0x3456789a =
        some (buf1, 0, some (.insufficientBuffer 100 4)) ∧
      slice buf1 0 4 = some [0, 0, 0, 0] ∧
      slice buf1 0 4 ≠ some [0x34, 0x56, 0x78, 0x9a] :=
  ⟨List.replicate 100 0, by decide, by decide, by decide⟩

/-- C3. Scalar round trip: whenever `EncodeUint8`, `EncodeUint16`, `EncodeUint32`,
`EncodeUint64` or `EncodeBool` returns `(o, nil)` for a value of its kind, the matching
decoder, run on the resulting buffer at the same offset, returns that value and the same
new offset `o` (and, for `DecodeBool`, no error). -/
theorem C3_scalar_round_trip (buf buf1 : Buf) (offset o : Nat) :
    (∀ v, v < 2 ^ 8 → EncodeUint8 buf offset v = some (buf1, o, none) →
      DecodeUint8 buf1 offset = some (v, o)) ∧
    (∀ v, v < 2 ^ 16 → EncodeUint16 buf offset v = some (buf1, o, none) →
      DecodeUint16 buf1 offset = some (v, o)) ∧
    (∀ v, v < 2 ^ 32 → EncodeUint32 buf offset v = some (buf1, o, none) →
      DecodeUint32 buf1 offset = some (v, o)) ∧
    (∀ v, v < 2 ^ 64 → EncodeUint64 buf offset v = some (buf1, o, none) →
      DecodeUint64 buf1 offset = some (v, o)) ∧
    (∀ v : Bool, EncodeBool buf offset v = some (buf1, o, none) →
      DecodeBool buf1 offset = some (v, o, none)) :=
  ⟨fun v hv h => round_trip_uint8 buf buf1 offset v o hv h,
   fun v hv h => round_trip_uint16 buf buf1 offset v o hv h,
   fun v hv h => round_trip_uint32 buf buf1 offset v o hv h,
   fun v hv h => round_trip_uint64 buf buf1 offset v o hv h,
   fun v h => round_trip_bool buf buf1 offset o v h⟩

/-- C3, witness: each encoder succeeds on a buffer that ends with the written field, and
the decoder reads the value back. -/
theorem C3_scalar_round_trip_witness :
    DecodeUint8 [0, 0x9a] 1 = some (0x9a, 2) ∧
    DecodeUint16 [0, 0x78, 0x9a] 1 = some (0x789a, 3) ∧
    DecodeUint32 [0x34, 0x56, 0x78, 0x9a] 0 = some (0x3456789a, 4) ∧
    DecodeUint64 [0, 0, 0, 0, 0x34, 0x56, 0x78, 0x9a] 0 = some (0x3456789a, 8) ∧
    DecodeBool [0, 1] 1 = some (true, 2, none) :=
  ⟨(C3_scalar_round_trip [0, 0] [0, 0x9a] 1 2).1 0x9a (by decide) (by decide),
   (C3_scalar_round_trip [0, 0, 0] [0, 0x78, 0x9a] 1 3).2.1 0x789a (by decide) (by decide),
   (C3_scalar_round_trip [0, 0, 0, 0] [0x34, 0x56, 0x78, 0x9a] 0 4).2.2.1 0x3456789a
     (by decide) (by decide),
   (C3_scalar_round_trip [0, 0, 0, 0, 0, 0, 0, 0] [0, 0, 0, 0, 0x34, 0x56, 0x78, 0x9a] 0
     8).2.2.2.1 0x3456789a (by decide) (by decide),
   (C3_scalar_round_trip [0, 0] [0, 1] 1 2).2.2.2.2 true (by decide)⟩

/-- C4 (the code departs from the claim). For the value `0xabcdef` at offset 0,
`EncodeUint24` panics on a 3-byte buffer, because `putUint24` indexes a fourth byte, and
returns the insufficient-buffer error on every longer buffer tried here; the decoder does
read `0xabcdef` from the bytes `[0xef, 0xcd, 0xab]`. -/
theorem C4_EncodeUint24_never_writes :
    EncodeUint24 [0, 0, 0] 0 0xabcdef = none ∧
    EncodeUint24 [0, 0, 0, 0] 0 0xabcdef =
      some ([0, 0, 0, 0], 0, some (.insufficientBuffer 4 3)) ∧
    EncodeUint24 (List.replicate 100 0) 0 0xabcdef =
      some (List.replicate 100 0, 0, some (.insufficientBuffer 100 3)) ∧
    DecodeUint24 [0xef, 0xcd, 0xab] 0 = some (0xabcdef, 3) := by
  decide

/-- C5. For `offset < len(buf)`, `DecodeBool` returns the new offset `offset + 1` (the
`uint32` sum, which is the natural sum whenever it is below `2 ^ 32`) in all cases, with
`(false, nil)` when `buf[offset] = 0`, `(true, nil)` when `buf[offset] = 1`, and the value
`true` with an invalid-boolean error for every other byte; hence it returns an error
exactly when the byte is neither 0 nor 1. -/
theorem C5_DecodeBool (buf : Buf) (offset : Nat) (h : offset < buf.length) :
    (buf[offset] = 0 → DecodeBool buf offset = some (false, u32 (offset + 1), none)) ∧
    (buf[offset] = 1 → DecodeBool buf offset = some (true, u32 (offset + 1), none)) ∧
    (buf[offset] ≠ 0 → buf[offset] ≠ 1 →
      DecodeBool buf offset =
        some (true, u32 (offset + 1), some (.invalidBoolean buf[offset]))) ∧
    (∃ val err, DecodeBool buf offset = some (val, u32 (offset + 1), err) ∧
      (err ≠ none ↔ buf[offset] ≠ 0 ∧ buf[offset] ≠ 1)) ∧
    (offset + 1 < 2 ^ 32 → u32 (offset + 1) = offset + 1) := by
  have hg : buf.getD offset 0 = buf[offset] := by
    simp [List.getD_eq_getElem?_getD, h]
  unfold DecodeBool
  rw [if_pos h, hg]
  refine ⟨fun h0 => by simp [h0], fun h1 => by simp [h1], fun h0 h1 => by simp [h0, h1], ?_,
    fun hw => Nat.mod_eq_of_lt hw⟩
  by_cases h0 : buf[offset] = 0
  · exact ⟨false, none, by simp [h0], by simp [h0]⟩
  · by_cases h1 : buf[offset] = 1
    · exact ⟨true, none, by simp [h1], by simp [h1]⟩
    · exact ⟨true, some (.invalidBoolean buf[offset]), by simp [h0, h1], by simp [h0, h1]⟩

/-- C5, witness: the bytes 0, 1 and 2 of the buffer `[0, 1, 2]`. -/
theorem C5_DecodeBool_witness :
    DecodeBool [0, 1, 2] 0 = some (false, 1, none) ∧
    DecodeBool [0, 1, 2] 1 = some (true, 2, none) ∧
    DecodeBool [0, 1, 2] 2 = some (true, 3, some (.invalidBoolean 2)) :=
  ⟨(C5_DecodeBool [0, 1, 2] 0 (by decide)).1 (by decide),
   (C5_DecodeBool [0, 1, 2] 1 (by decide)).2.1 (by decide),
   (C5_DecodeBool [0, 1, 2] 2 (by decide)).2.2.1 (by decide) (by decide)⟩

/-- C6 (the code departs from the claim). For the data `[1, 2, 3]` at offset 0 of a zeroed
7-byte buffer `EncodeBytesWithLengthPrefix` returns the insufficient-buffer error and
writes nothing. -/
theorem C6_EncodeBytesWithLengthPrefix_example :
    EncodeBytesWithLengthPrefix (List.replicate 7 0) 0 [1, 2, 3] =
      some (List.replicate 7 0, 0, some (.insufficientBuffer 7 3)) := by
  decide

/-- C7 (the code departs from the claim). `EncodeBytesWithoutLengthPrefix` returns the
insufficient-buffer error for two bytes of data in a 4-byte buffer; with an exact fit at
offset 1 of a 3-byte buffer it returns the offset `1 + len(buf) = 4`; and for two bytes of
data in a 1-byte buffer it returns no error. -/
theorem C7_EncodeBytesWithoutLengthPrefix_examples :
    EncodeBytesWithoutLengthPrefix [0, 0, 0, 0] 0 [1, 2] =
      some ([0, 0, 0, 0], 0, some (.insufficientBuffer 4 2)) ∧
    EncodeBytesWithoutLengthPrefix [0, 0, 0] 1 [1, 2] = some ([0, 1, 2], 4, none) ∧
    EncodeBytesWithoutLengthPrefix [0] 0 [1, 2] = some ([1], 1, none) := by
  decide

/-- C8 (amended). For a width `n` that is a multiple of 8, a value `0 ≤ v < 2 ^ n` and a
field that fits, `offset + n/8 ≤ len(buf)` and `offset + n/8 < 2 ^ 32`, `EncodeUintN` returns
`(offset + n/8, nil)`, writes the bytes of `v` right-aligned in the field and keeps the
field's leading `n/8 - len(Bytes(v))` bytes as they were: the field is the zero-padded
big-endian representation of `v` exactly when those leading bytes were zero beforehand. -/
theorem C8_EncodeUintN_field (buf : Buf) (offset n : Nat) (v : Int) (hn8 : n % 8 = 0)
    (hv0 : 0 ≤ v) (hvn : v < 2 ^ n) (hfit : offset + n / 8 ≤ buf.length)
    (hnw : offset + n / 8 < 2 ^ 32) :
    ∃ buf1 lead, EncodeUintN buf offset n v = some (buf1, offset + n / 8, none) ∧
      slice buf offset (offset + (n / 8 - (Bytes v).length)) = some lead ∧
      slice buf1 offset (offset + n / 8) = some (lead ++ Bytes v) ∧
      (slice buf1 offset (offset + n / 8) = some (bigEndianPadded (n / 8) v.toNat) ↔
        lead = List.replicate (n / 8 - (Bytes v).length) 0) := by
  have hL := Bytes_length_le n v hn8 hv0 hvn
  refine ⟨_, _, EncodeUintN_fits buf offset n v hn8 hv0 hvn hfit hnw,
    slice_add buf offset _ (by omega),
    slice_EncodeUintN_result buf offset (n / 8) (Bytes v) hL hfit, ?_⟩
  rw [slice_EncodeUintN_result buf offset (n / 8) (Bytes v) hL hfit, toNat_eq_natAbs v hv0,
    bigEndianPadded_eq (n / 8) v.natAbs (natAbs_lt_pow n v hn8 hv0 hvn)]
  simp only [Option.some.injEq]
  exact List.append_left_inj _

/-- C8, witness: the value 1 on 16 bits at offset 1 of a zeroed 4-byte buffer. -/
theorem C8_EncodeUintN_field_witness :
    ∃ buf1 lead, EncodeUintN [0, 0, 0, 0] 1 16 1 = some (buf1, 3, none) ∧
      slice [0, 0, 0, 0] 1 (1 + (16 / 8 - (Bytes 1).length)) = some lead ∧
      slice buf1 1 3 = some (lead ++ Bytes 1) ∧
      (slice buf1 1 3 = some (bigEndianPadded (16 / 8) (1 : Int).toNat) ↔
        lead = List.replicate (16 / 8 - (Bytes 1).length) 0) :=
  C8_EncodeUintN_field [0, 0, 0, 0] 1 16 1 (by decide) (by decide) (by norm_num) (by decide)
    (by decide)

/-- C8, counterexample: on the buffer `[0xff, 0xff]` the 16-bit field of the value 1 is
`[0xff, 0x01]` after the call, not `[0x00, 0x01]`; and on a zeroed buffer of `2 ^ 32 + 1`
bytes at offset `2 ^ 32 - 1` the field is not the padded representation either. -/
theorem C8_counterexample :
    (0 + 16 / 8 ≤ [255, 255].length ∧
      ¬ ∃ buf1 o e, EncodeUintN [255, 255] 0 16 1 = some (buf1, o, e) ∧
        slice buf1 0 (0 + 16 / 8) = some (bigEndianPadded (16 / 8) 1)) ∧
    (4294967295 + 16 / 8 ≤ (List.replicate 4294967297 0).length ∧
      ¬ ∃ buf1 o e, EncodeUintN (List.replicate 4294967297 0) 4294967295 16 1 =
          some (buf1, o, e) ∧
        slice buf1 4294967295 (4294967295 + 16 / 8) = some (bigEndianPadded (16 / 8) 1)) := by
  refine ⟨⟨by decide, ?_⟩, ⟨?_, ?_⟩⟩
  · rintro ⟨buf1, o, e, h1, h2⟩
    have he : EncodeUintN [255, 255] 0 16 1 = some ([255, 1], 2, none) := by decide
    rw [he] at h1
    cases h1
    revert h2
    decide
  · have hl : (List.replicate 4294967297 0).length = 4294967297 := List.length_replicate _ _
    omega
  · rintro ⟨buf1, o, e, h1, h2⟩
    have hp : bigEndianPadded (16 / 8) 1 = [0, 1] := by decide
    have hw := EncodeUintN_wrap (List.replicate 4294967297 0)
    have hb : copy (List.replicate 4294967297 0) [1] = buf1 := by
      have h3 := hw.symm.trans h1
      exact (Prod.mk.inj (Option.some.inj h3)).1
    have hl : (List.replicate 4294967297 0).length = 4294967297 := List.length_replicate _ _
    have hz : (List.replicate 4294967297 0)[4294967296]? = some 0 := by
      rw [List.getElem?_replicate, if_pos (by omega)]
    rw [hp, ← hb] at h2
    exact wrap_field_untouched (List.replicate 4294967297 0) (by omega) hz h2

/-- C9 (the code departs from the claim). For the value `0x0102` on 8 bits, `EncodeUintN`
panics at offset 0 of a 1-byte buffer, and at offset 1 of a 3-byte buffer it overwrites the
byte in front of the field. -/
theorem C9_EncodeUintN_overflow :
    EncodeUintN [0] 0 8 0x0102 = none ∧
    EncodeUintN [0, 0, 0] 1 8 0x0102 = some ([1, 2, 0], 2, none) := by
  decide

/-- C10 (amended). Arbitrary-width round trip: for a width `n` that is a multiple of 8, a
value `0 ≤ v < 2 ^ n` and a field that fits, `offset + n/8 ≤ len(buf)` and
`offset + n/8 < 2 ^ 32`, whose bytes are all zero beforehand, `EncodeUintN` returns
`(offset + n/8, nil)` and `DecodeUintN` on the resulting buffer at the same offset and width
returns `v`, the new offset `offset + n/8` and no error. -/
theorem C10_uintN_round_trip (buf : Buf) (offset n : Nat) (v : Int) (dest : Option Int)
    (hn8 : n % 8 = 0) (hv0 : 0 ≤ v) (hvn : v < 2 ^ n) (hfit : offset + n / 8 ≤ buf.length)
    (hnw : offset + n / 8 < 2 ^ 32)
    (hzero : slice buf offset (offset + n / 8) = some (List.replicate (n / 8) 0)) :
    ∃ buf1, EncodeUintN buf offset n v = some (buf1, offset + n / 8, none) ∧
      DecodeUintN buf1 offset n dest = some (some v, offset + n / 8, none) := by
  have hL := Bytes_length_le n v hn8 hv0 hvn
  refine ⟨_, EncodeUintN_fits buf offset n v hn8 hv0 hvn hfit hnw, ?_⟩
  have hret : u32 (offset + n / 8) = offset + n / 8 := by
    unfold u32; omega
  rw [slice_add buf offset (n / 8) hfit] at hzero
  have hlead : (buf.drop offset).take (n / 8 - (Bytes v).length) =
      List.replicate (n / 8 - (Bytes v).length) 0 := by
    have := congrArg (List.take (n / 8 - (Bytes v).length)) (Option.some.inj hzero)
    rw [List.take_take, List.take_replicate] at this
    simpa using this
  unfold DecodeUintN
  rw [if_neg (by omega)]
  simp only [hret, slice_EncodeUintN_result buf offset (n / 8) (Bytes v) hL hfit, hlead,
    SetBytes, magnitude_replicate_zero_append, magnitude_Bytes v hv0]

/-- C10, witness: the value `0x1234` on 32 bits at offset 1 of a 6-byte buffer whose field
is zero. -/
theorem C10_uintN_round_trip_witness :
    ∃ buf1, EncodeUintN [9, 0, 0, 0, 0, 9] 1 32 0x1234 = some (buf1, 5, none) ∧
      DecodeUintN buf1 1 32 none = some (some 0x1234, 5, none) :=
  C10_uintN_round_trip [9, 0, 0, 0, 0, 9] 1 32 0x1234 none (by decide) (by decide)
    (by norm_num) (by decide) (by decide) (by decide)

/-- C10, counterexample: on a zeroed buffer of `2 ^ 32 + 1` bytes at offset `2 ^ 32 - 1`
the 16-bit field fits and is zero, yet `EncodeUintN` returns the offset 1 and `DecodeUintN`
panics on every buffer at that offset. -/
theorem C10_counterexample :
    4294967295 + 16 / 8 ≤ (List.replicate 4294967297 0).length ∧
    slice (List.replicate 4294967297 0) 4294967295 (4294967295 + 16 / 8) =
      some (List.replicate (16 / 8) 0) ∧
    ¬ ∃ buf1, EncodeUintN (List.replicate 4294967297 0) 4294967295 16 1 =
        some (buf1, 4294967295 + 16 / 8, none) ∧
      DecodeUintN buf1 4294967295 16 none = some (some 1, 4294967295 + 16 / 8, none) := by
  have hl : (List.replicate 4294967297 0).length = 4294967297 := List.length_replicate _ _
  refine ⟨by omega, ?_, ?_⟩
  · rw [slice_add _ _ _ (by omega), List.drop_replicate, List.take_replicate]
    have e : 16 / 8 ⊓ (4294967297 - 4294967295) = 16 / 8 := by decide
    rw [e]
  · rintro ⟨buf1, _, h2⟩
    rw [DecodeUintN_wrap] at h2
    cases h2

/-- C11 (the code departs from the claim). On the input of `TestEncodeUint256`, a zeroed
100-byte buffer, offset 0, `n = 256` and the value `0x3456789a`, `EncodeUintN` puts the four
bytes of the value in `buf[28:32]`, leaves `buf[0:4]` zero and returns the offset 32, where
the test expects the bytes in `buf[0:4]` and the offset 256. -/
theorem C11_EncodeUintN_test_input :
    (∃ buf1, EncodeUintN (List.replicate 100 0) 0 256 0x3456789a = some (buf1, 32, none) ∧
      slice buf1 0 4 = some [0, 0, 0, 0] ∧
      slice buf1 28 32 = some [0x34, 0x56, 0x78, 0x9a]) ∧
    ¬ ∃ buf1 e, EncodeUintN (List.replicate 100 0) 0 256 0x3456789a =
        some (buf1, 0 + 256, e) ∧
      slice buf1 0 (0 + (Bytes 0x3456789a).length) = some (Bytes 0x3456789a) := by
  have he : EncodeUintN (List.replicate 100 0) 0 256 0x3456789a =
      some (List.replicate 28 0 ++ [0x34, 0x56, 0x78, 0x9a] ++ List.replicate 68 0, 32,
        none) := by decide
  refine ⟨⟨_, he, by decide, by decide⟩, ?_⟩
  rintro ⟨buf1, e, h1, -⟩
  rw [he] at h1
  simp at h1

/-- C12 (amended). For a buffer of bytes and an offset with `offset + 4 ≤ len(buf)`, with `L`
the big-endian `uint32` stored at `buf[offset .. offset + 4)`, if
`offset + 4 + L ≤ len(buf)` and `offset + 4 + L < 2 ^ 32` then `DecodeBytesX` returns a byte
sequence of length `L` equal to `buf[offset + 4 .. offset + 4 + L)`, the new offset
`offset + 4 + L` and no error; it only reads `buf`. -/
theorem C12_DecodeBytesX (buf : Buf) (offset : Nat) (hwf : ∀ x ∈ buf, x < 256)
    (hfit : offset + 4 ≤ buf.length)
    (hL : offset + 4 + bigEndianAt buf offset 4 ≤ buf.length)
    (hnw : offset + 4 + bigEndianAt buf offset 4 < 2 ^ 32) :
    ∃ bs, DecodeBytesX buf offset =
        some (bs, offset + 4 + bigEndianAt buf offset 4, none) ∧
      bs.length = bigEndianAt buf offset 4 ∧
      slice buf (offset + 4) (offset + 4 + bigEndianAt buf offset 4) = some bs := by
  have h4 : u32 (offset + 4) = offset + 4 := Nat.mod_eq_of_lt (by omega)
  have hs : u32 (offset + 4 + bigEndianAt buf offset 4) = offset + 4 + bigEndianAt buf offset 4 :=
    Nat.mod_eq_of_lt hnw
  have hsl := slice_add buf (offset + 4) (bigEndianAt buf offset 4) hL
  have hlen : ((buf.drop (offset + 4)).take (bigEndianAt buf offset 4)).length =
      bigEndianAt buf offset 4 := by
    rw [List.length_take, List.length_drop]; omega
  refine ⟨(buf.drop (offset + 4)).take (bigEndianAt buf offset 4), ?_, hlen, hsl⟩
  unfold DecodeBytesX
  simp only [DecodeUint32_eq buf offset hwf hfit, h4, hs, hsl]
  rw [copy_replicate _ _ hlen]

/-- C12, witness: the buffer `[0, 0, 0, 3, 1, 2, 3]` at offset 0 gives `[1, 2, 3]` and the
offset 7. -/
theorem C12_DecodeBytesX_witness :
    ∃ bs, DecodeBytesX [0, 0, 0, 3, 1, 2, 3] 0 = some (bs, 7, none) ∧
      bs.length = 3 ∧ slice [0, 0, 0, 3, 1, 2, 3] 4 7 = some bs :=
  C12_DecodeBytesX [0, 0, 0, 3, 1, 2, 3] 0 (by decide) (by decide) (by decide) (by decide)

/-- C12, counterexample: in a buffer of `2 ^ 32 + 1` bytes whose length prefix
`[0, 0, 0, 2]` sits at offset `2 ^ 32 - 5` and is followed by the two bytes `[9, 9]`, the
upper bound `offset + 4 + L` of the slice expression wraps around to 1 and `DecodeBytesX`
panics. -/
theorem C12_counterexample :
    4294967291 + 4 ≤ prefixAtWrap.length ∧
    bigEndianAt prefixAtWrap 4294967291 4 = 2 ∧
    4294967291 + 4 + 2 ≤ prefixAtWrap.length ∧
    slice prefixAtWrap (4294967291 + 4) (4294967291 + 4 + 2) = some [9, 9] ∧
    DecodeBytesX prefixAtWrap 4294967291 = none := by
  have hl := prefixAtWrap_length
  have hd := prefixAtWrap_drop
  refine ⟨by omega, ?_, by omega, ?_, ?_⟩
  · unfold bigEndianAt
    rw [hd]
    decide
  · rw [slice_add _ _ _ (by omega)]
    have e : List.drop (4294967291 + 4) prefixAtWrap =
        List.drop 4 (List.drop 4294967291 prefixAtWrap) := by
      rw [List.drop_drop]
    rw [e, hd]
    decide
  · exact DecodeBytesX_wrap prefixAtWrap hd (by omega)

/-- C13. For `elemSize = 4`, a buffer of bytes shorter than `2 ^ 32` and an offset with
`offset + 4 ≤ len(buf)`, with `L` the big-endian `uint32` at `buf[offset .. offset + 4)`, if
`offset + 4 + L ≤ len(buf)` then `DecodeListUint32` returns no error, a list of exactly
`L / 4` elements whose `i`-th element is the big-endian `uint32` stored at
`buf[offset + 4 + 4 i .. offset + 8 + 4 i)`, and the new offset `offset + 4 + 4 * (L / 4)`. -/
theorem C13_DecodeListUint32_four (buf : Buf) (offset : Nat) (hwf : ∀ x ∈ buf, x < 256)
    (hlen : buf.length < 2 ^ 32) (hfit : offset + 4 ≤ buf.length)
    (hL : offset + 4 + bigEndianAt buf offset 4 ≤ buf.length) :
    ∃ elems, DecodeListUint32 buf offset 4 =
        some (elems, offset + 4 + 4 * (bigEndianAt buf offset 4 / 4), none) ∧
      elems.length = bigEndianAt buf offset 4 / 4 ∧
      ∀ i, i < bigEndianAt buf offset 4 / 4 →
        elems[i]? = some (bigEndianAt buf (offset + 4 + 4 * i) 4) := by
  have hread : offset + 4 + 4 * (bigEndianAt buf offset 4 / 4) ≤ buf.length := by
    have := div_mul_le_of_four_le (bigEndianAt buf offset 4) 4 (le_refl 4)
    omega
  have hm := map_range_length_getElem (fun i => bigEndianAt buf (offset + 4 + 4 * i) 4)
    (bigEndianAt buf offset 4 / 4)
  exact ⟨_, DecodeListUint32_ok buf offset 4 hwf hlen hfit hL (by omega) hread, hm.1, hm.2⟩

/-- C13, witness: a byte length of 8 gives exactly two elements, and a byte length of 6
gives one element, the two remaining bytes being dropped. -/
theorem C13_DecodeListUint32_four_witness :
    (∃ elems, DecodeListUint32 [0, 0, 0, 8, 0, 0, 0, 1, 0, 0, 1, 0] 0 4 =
        some (elems, 12, none) ∧ elems.length = 2 ∧
      ∀ i, i < 2 → elems[i]? =
        some (bigEndianAt [0, 0, 0, 8, 0, 0, 0, 1, 0, 0, 1, 0] (0 + 4 + 4 * i) 4)) ∧
    (∃ elems, DecodeListUint32 [0, 0, 0, 6, 0, 0, 0, 1, 0, 0] 0 4 =
        some (elems, 8, none) ∧ elems.length = 1 ∧
      ∀ i, i < 1 → elems[i]? = some (bigEndianAt [0, 0, 0, 6, 0, 0, 0, 1, 0, 0] (0 + 4 + 4 * i) 4)) :=
  ⟨C13_DecodeListUint32_four [0, 0, 0, 8, 0, 0, 0, 1, 0, 0, 1, 0] 0 (by decide) (by decide)
      (by decide) (by decide),
   C13_DecodeListUint32_four [0, 0, 0, 6, 0, 0, 0, 1, 0, 0] 0 (by decide) (by decide)
      (by decide) (by decide)⟩

/-- C14 (the code departs from the claim). With the length prefix `0xfffffffc` in an 8-byte
buffer the declared length exceeds the 4 remaining bytes, yet the `uint32` sum
`offset + bytelen` wraps around to 0, the check passes and the decoding loop panics after
the first element; with the prefix 8 the same buffer gets the insufficient-input error. -/
theorem C14_DecodeListUint32_wrapped_check :
    bigEndianAt [0xff, 0xff, 0xff, 0xfc, 1, 2, 3, 4] 0 4 = 0xfffffffc ∧
    0 + 4 + 0xfffffffc > [0xff, 0xff, 0xff, 0xfc, 1, 2, 3, 4].length ∧
    DecodeListUint32 [0xff, 0xff, 0xff, 0xfc, 1, 2, 3, 4] 0 4 = none ∧
    DecodeListUint32 [0, 0, 0, 8, 1, 2, 3, 4] 0 4 = some ([], 0, some .insufficientInput) :=
  ⟨by decide, by decide, by decide, by decide⟩

/-- C15 (the code departs from the claim). `SszSize` of an absent object is 0 and on a
4-byte buffer `SszEncode` of an absent object writes four zero bytes and returns `(4, nil)`;
on an 8-byte buffer it returns the insufficient-buffer error with offset 0 and writes
nothing. -/
theorem C15_SszEncode_absent :
    SszSize .nilInterface = 0 ∧ SszSize .nilPointer = 0 ∧
    SszEncode [9, 9, 9, 9] .nilInterface = some ([0, 0, 0, 0], 4, none) ∧
    SszEncode [9, 9, 9, 9] .nilPointer = some ([0, 0, 0, 0], 4, none) ∧
    SszEncode [9, 9, 9, 9, 9, 9, 9, 9] .nilInterface =
      some ([9, 9, 9, 9, 9, 9, 9, 9], 0, some (.insufficientBuffer 8 4)) ∧
    SszEncode [9, 9, 9, 9, 9, 9, 9, 9] .nilPointer =
      some ([9, 9, 9, 9, 9, 9, 9, 9], 0, some (.insufficientBuffer 8 4)) :=
  ⟨rfl, rfl, by decide, by decide, by decide, by decide⟩

/-- C16. `SszTypeSize` is total over strings: it returns `(1, nil)` for "uint8" and
"bytes1", 2 for "uint16" and "bytes2", 4 for "uint32" and "bytes4", 8 for "uint64" and
"bytes8", 20 for "bytes20", 32 for "uint256" and "bytes32", and for every other string,
such as "uint24", "bool", "bytes", "" or "Uint8", the size 0 with an error; hence it
returns an error exactly when the name is not one of those eleven. -/
theorem C16_SszTypeSize_total (s : String) :
    (s = "uint8" ∨ s = "bytes1" → SszTypeSize s = (1, none)) ∧
    (s = "uint16" ∨ s = "bytes2" → SszTypeSize s = (2, none)) ∧
    (s = "uint32" ∨ s = "bytes4" → SszTypeSize s = (4, none)) ∧
    (s = "uint64" ∨ s = "bytes8" → SszTypeSize s = (8, none)) ∧
    (s = "bytes20" → SszTypeSize s = (20, none)) ∧
    (s = "uint256" ∨ s = "bytes32" → SszTypeSize s = (32, none)) ∧
    (s ∉ ["uint8", "bytes1", "uint16", "bytes2", "uint32", "bytes4", "uint64", "bytes8",
        "bytes20", "uint256", "bytes32"] → SszTypeSize s = (0, some (.unknownType s))) ∧
    ((SszTypeSize s).2 ≠ none ↔
      s ∉ ["uint8", "bytes1", "uint16", "bytes2", "uint32", "bytes4", "uint64", "bytes8",
        "bytes20", "uint256", "bytes32"]) ∧
    (∀ t ∈ ["uint24", "bool", "bytes", "", "Uint8"],
      SszTypeSize t = (0, some (.unknownType t))) := by
  refine ⟨?_, ?_, ?_, ?_, ?_, ?_, SszTypeSize_unknown s, ?_, ?_⟩
  · rintro (rfl | rfl) <;> decide
  · rintro (rfl | rfl) <;> decide
  · rintro (rfl | rfl) <;> decide
  · rintro (rfl | rfl) <;> decide
  · rintro rfl; decide
  · rintro (rfl | rfl) <;> decide
  · constructor
    · intro herr hmem
      simp only [List.mem_cons, List.mem_singleton, List.not_mem_nil, or_false] at hmem
      rcases hmem with rfl | rfl | rfl | rfl | rfl | rfl | rfl | rfl | rfl | rfl | rfl <;>
        exact herr (by decide)
    · intro h
      rw [SszTypeSize_unknown s h]
      simp
  · intro t ht
    simp only [List.mem_cons, List.mem_singleton, List.not_mem_nil, or_false] at ht
    rcases ht with rfl | rfl | rfl | rfl | rfl <;> decide

/-- C16, witness: the eleven names and one unknown name. -/
theorem C16_SszTypeSize_total_witness :
    SszTypeSize "uint8" = (1, none) ∧ SszTypeSize "bytes1" = (1, none) ∧
    SszTypeSize "uint16" = (2, none) ∧ SszTypeSize "bytes2" = (2, none) ∧
    SszTypeSize "uint32" = (4, none) ∧ SszTypeSize "bytes4" = (4, none) ∧
    SszTypeSize "uint64" = (8, none) ∧ SszTypeSize "bytes8" = (8, none) ∧
    SszTypeSize "bytes20" = (20, none) ∧
    SszTypeSize "uint256" = (32, none) ∧ SszTypeSize "bytes32" = (32, none) ∧
    SszTypeSize "string" = (0, some (.unknownType "string")) :=
  ⟨(C16_SszTypeSize_total "uint8").1 (Or.inl rfl),
   (C16_SszTypeSize_total "bytes1").1 (Or.inr rfl),
   (C16_SszTypeSize_total "uint16").2.1 (Or.inl rfl),
   (C16_SszTypeSize_total "bytes2").2.1 (Or.inr rfl),
   (C16_SszTypeSize_total "uint32").2.2.1 (Or.inl rfl),
   (C16_SszTypeSize_total "bytes4").2.2.1 (Or.inr rfl),
   (C16_SszTypeSize_total "uint64").2.2.2.1 (Or.inl rfl),
   (C16_SszTypeSize_total "bytes8").2.2.2.1 (Or.inr rfl),
   (C16_SszTypeSize_total "bytes20").2.2.2.2.1 rfl,
   (C16_SszTypeSize_total "uint256").2.2.2.2.2.1 (Or.inl rfl),
   (C16_SszTypeSize_total "bytes32").2.2.2.2.2.1 (Or.inr rfl),
   (C16_SszTypeSize_total "string").2.2.2.2.2.2.1 (by decide)⟩

/-- C17 (amended). For every `elemSize ≥ 1`, every buffer of bytes shorter than `2 ^ 32` and
offset with `offset + 4 ≤ len(buf)` whose prefix `L` satisfies `offset + 4 + L ≤ len(buf)`,
and such that `elemSize ≥ 4` or the `L / elemSize` groups of 4 bytes after the prefix lie
inside the buffer, `DecodeListUint32` completes without an out-of-range read and returns,
with no error, exactly `L / elemSize` elements, the `i`-th being the big-endian `uint32`
stored in the `i`-th group of 4 bytes after the prefix. -/
theorem C17_DecodeListUint32_elemSize (buf : Buf) (offset elemSize : Nat)
    (hwf : ∀ x ∈ buf, x < 256) (hlen : buf.length < 2 ^ 32) (hfit : offset + 4 ≤ buf.length)
    (hL : offset + 4 + bigEndianAt buf offset 4 ≤ buf.length) (he : 1 ≤ elemSize)
    (hread : 4 ≤ elemSize ∨
      offset + 4 + 4 * (bigEndianAt buf offset 4 / elemSize) ≤ buf.length) :
    ∃ elems off, DecodeListUint32 buf offset elemSize = some (elems, off, none) ∧
      elems.length = bigEndianAt buf offset 4 / elemSize ∧
      ∀ i, i < bigEndianAt buf offset 4 / elemSize →
        elems[i]? = some (bigEndianAt buf (offset + 4 + 4 * i) 4) := by
  have hread1 : offset + 4 + 4 * (bigEndianAt buf offset 4 / elemSize) ≤ buf.length := by
    rcases hread with h4 | h
    · have := div_mul_le_of_four_le (bigEndianAt buf offset 4) elemSize h4
      omega
    · exact h
  have hm := map_range_length_getElem (fun i => bigEndianAt buf (offset + 4 + 4 * i) 4)
    (bigEndianAt buf offset 4 / elemSize)
  exact ⟨_, _, DecodeListUint32_ok buf offset elemSize hwf hlen hfit hL he hread1, hm.1, hm.2⟩

/-- C17, witness: a byte length of 16 read with `elemSize = 8` gives two elements, taken
from the first two groups of 4 bytes. -/
theorem C17_DecodeListUint32_elemSize_witness :
    ∃ elems off, DecodeListUint32
        [0, 0, 0, 16, 0, 0, 0, 1, 0, 0, 0, 2, 0, 0, 0, 3, 0, 0, 0, 4] 0 8 =
          some (elems, off, none) ∧
      elems.length = 2 ∧
      ∀ i, i < 2 → elems[i]? = some (bigEndianAt
        [0, 0, 0, 16, 0, 0, 0, 1, 0, 0, 0, 2, 0, 0, 0, 3, 0, 0, 0, 4] (0 + 4 + 4 * i) 4) :=
  C17_DecodeListUint32_elemSize [0, 0, 0, 16, 0, 0, 0, 1, 0, 0, 0, 2, 0, 0, 0, 3, 0, 0, 0, 4] 0 8
    (by decide) (by decide) (by decide) (by decide) (by decide) (Or.inl (by decide))

/-- C17, counterexample: with `elemSize = 1` and a byte length of 4 that fits exactly, the
loop asks for four elements and panics on the second; and on a buffer of `2 ^ 32 + 4` bytes
the truncated length makes the check fail although the declared 4 bytes are there. -/
theorem C17_counterexample :
    (0 + 4 ≤ [0, 0, 0, 4, 1, 2, 3, 4].length ∧
      bigEndianAt [0, 0, 0, 4, 1, 2, 3, 4] 0 4 = 4 ∧
      0 + 4 + 4 ≤ [0, 0, 0, 4, 1, 2, 3, 4].length ∧
      DecodeListUint32 [0, 0, 0, 4, 1, 2, 3, 4] 0 1 = none) ∧
    (0 + 4 ≤ longList.length ∧
      bigEndianAt longList 0 4 = 4 ∧
      0 + 4 + 4 ≤ longList.length ∧
      DecodeListUint32 longList 0 4 = some ([], 0, some .insufficientInput)) := by
  have hr : (List.replicate 4294967296 1).length = 4294967296 := List.length_replicate _ _
  have hl1 : longList.length = (0 :: 0 :: 4 :: List.replicate 4294967296 1).length + 1 :=
    List.length_cons _ _
  have hl2 : (0 :: 0 :: 4 :: List.replicate 4294967296 1).length =
      (0 :: 4 :: List.replicate 4294967296 1).length + 1 := List.length_cons _ _
  have hl3 : (0 :: 4 :: List.replicate 4294967296 1).length =
      (4 :: List.replicate 4294967296 1).length + 1 := List.length_cons _ _
  have hl4 : (4 :: List.replicate 4294967296 1).length =
      (List.replicate 4294967296 1).length + 1 := List.length_cons _ _
  refine ⟨⟨by decide, by decide, by decide, by decide⟩, ⟨by omega, ?_, by omega, ?_⟩⟩
  · simp only [bigEndianAt, longList, List.drop_zero, List.take_succ_cons, List.take_zero]
    decide
  · have hu : u32 ((List.replicate 4294967296 1).length + 4) = 4 := by
      rw [hr]; decide
    exact DecodeListUint32_long (List.replicate 4294967296 1) 4 hu

/-- C18. `EncodeUint24` never returns successfully: on a buffer shorter than `2 ^ 32` bytes
it returns the insufficient-buffer error, with offset 0 and the buffer as it was, when
`offset + 3 < len(buf)` in `uint32` arithmetic, and otherwise it panics, at the slice
expression or at the bounds hint `_ = b[3]` of `putUint24`, before any byte is written. -/
theorem C18_EncodeUint24_never_succeeds (buf : Buf) (offset val : Nat)
    (hlen : buf.length < 2 ^ 32) :
    ((u32 (offset + 3) < buf.length ∧
        EncodeUint24 buf offset val =
          some (buf, 0, some (.insufficientBuffer buf.length (u32 (offset + 3))))) ∨
      (¬ u32 (offset + 3) < buf.length ∧ EncodeUint24 buf offset val = none)) ∧
    (∀ buf1 o, EncodeUint24 buf offset val ≠ some (buf1, o, none)) ∧
    (∀ buf1 o e, EncodeUint24 buf offset val = some (buf1, o, e) → buf1 = buf) := by
  have hu : u32 buf.length = buf.length := Nat.mod_eq_of_lt hlen
  have key : (u32 (offset + 3) < buf.length ∧
        EncodeUint24 buf offset val =
          some (buf, 0, some (.insufficientBuffer buf.length (u32 (offset + 3))))) ∨
      (¬ u32 (offset + 3) < buf.length ∧ EncodeUint24 buf offset val = none) := by
    by_cases hg : u32 (offset + 3) < buf.length
    · left
      refine ⟨hg, ?_⟩
      unfold EncodeUint24
      simp only [hu, hg, if_true]
    · right
      refine ⟨hg, ?_⟩
      unfold EncodeUint24
      simp only [hu, hg, if_false]
      unfold sliceFrom
      by_cases hle : offset ≤ buf.length
      · have hp : putUint24 (List.drop offset buf) val = none := by
          unfold putUint24
          rw [if_neg]
          rw [List.length_drop]
          unfold u32 at hg
          omega
        simp only [if_pos hle, hp]
      · simp only [if_neg hle]
  refine ⟨key, ?_, ?_⟩
  · intro buf1 o h
    rcases key with ⟨_, hk⟩ | ⟨_, hk⟩ <;> rw [hk] at h <;> simp at h
  · intro buf1 o e h
    rcases key with ⟨_, hk⟩ | ⟨_, hk⟩
    · rw [hk] at h
      simp only [Option.some.injEq, Prod.mk.injEq] at h
      exact h.1.symm
    · rw [hk] at h
      cases h

/-- C18, witness: a 3-byte buffer at offset 0 (a panic) and a 6-byte buffer (the error). -/
theorem C18_EncodeUint24_never_succeeds_witness :
    EncodeUint24 [0, 0, 0] 0 0xabcdef = none ∧
    EncodeUint24 [0, 0, 0, 0, 0, 0] 0 0xabcdef =
      some ([0, 0, 0, 0, 0, 0], 0, some (.insufficientBuffer 6 3)) :=
  ⟨((C18_EncodeUint24_never_succeeds [0, 0, 0] 0 0xabcdef (by decide)).1.resolve_left
      (fun h => absurd h.1 (by decide))).2,
   ((C18_EncodeUint24_never_succeeds [0, 0, 0, 0, 0, 0] 0 0xabcdef (by decide)).1.resolve_right
      (fun h => h.1 (by decide))).2⟩

/-- C19. Exact fit only: on a buffer shorter than `2 ^ 32` bytes, whenever `EncodeUint8`,
`EncodeUint16`, `EncodeUint32`, `EncodeUint64` or `EncodeBool` (width 1, 2, 4, 8, 1) returns
without error, `offset + width = len(buf)`; and whenever one of them returns an error, the
returned offset is 0 and the buffer is unchanged. -/
theorem C19_exact_fit_only (buf : Buf) (offset : Nat) (hlen : buf.length < 2 ^ 32) :
    (∀ v buf1 o e, EncodeUint8 buf offset v = some (buf1, o, e) →
      (e = none → offset + 1 = buf.length) ∧ (e ≠ none → o = 0 ∧ buf1 = buf)) ∧
    (∀ v buf1 o e, EncodeUint16 buf offset v = some (buf1, o, e) →
      (e = none → offset + 2 = buf.length) ∧ (e ≠ none → o = 0 ∧ buf1 = buf)) ∧
    (∀ v buf1 o e, EncodeUint32 buf offset v = some (buf1, o, e) →
      (e = none → offset + 4 = buf.length) ∧ (e ≠ none → o = 0 ∧ buf1 = buf)) ∧
    (∀ v buf1 o e, EncodeUint64 buf offset v = some (buf1, o, e) →
      (e = none → offset + 8 = buf.length) ∧ (e ≠ none → o = 0 ∧ buf1 = buf)) ∧
    (∀ v buf1 o e, EncodeBool buf offset v = some (buf1, o, e) →
      (e = none → offset + 1 = buf.length) ∧ (e ≠ none → o = 0 ∧ buf1 = buf)) :=
  ⟨fun v buf1 o e h => exact_fit_uint8 buf buf1 offset v o e hlen h,
   fun v buf1 o e h => exact_fit_uint16 buf buf1 offset v o e hlen h,
   fun v buf1 o e h => exact_fit_uint32 buf buf1 offset v o e hlen h,
   fun v buf1 o e h => exact_fit_uint64 buf buf1 offset v o e hlen h,
   fun v buf1 o e h => exact_fit_bool buf buf1 offset o v e hlen h⟩

/-- C19, witness: `EncodeUint32` on an exact fit (offset 2 of a 6-byte buffer) and with room
to spare (offset 0 of the same buffer). -/
theorem C19_exact_fit_only_witness :
    (EncodeUint32 [0, 0, 0, 0, 0, 0] 2 0x3456789a =
        some ([0, 0, 0x34, 0x56, 0x78, 0x9a], 6, none) ∧
      2 + 4 = [0, 0, 0, 0, 0, 0].length) ∧
    (EncodeUint32 [0, 0, 0, 0, 0, 0] 0 0x3456789a =
        some ([0, 0, 0, 0, 0, 0], 0, some (.insufficientBuffer 6 4)) ∧
      (0 : Nat) = 0 ∧ [0, 0, 0, 0, 0, 0] = [0, 0, 0, 0, 0, 0]) :=
  ⟨⟨by decide, ((C19_exact_fit_only [0, 0, 0, 0, 0, 0] 2 (by decide)).2.2.1 0x3456789a
      [0, 0, 0x34, 0x56, 0x78, 0x9a] 6 none (by decide)).1 rfl⟩,
   ⟨by decide, ((C19_exact_fit_only [0, 0, 0, 0, 0, 0] 0 (by decide)).2.2.1 0x3456789a
      [0, 0, 0, 0, 0, 0] 0 (some (.insufficientBuffer 6 4)) (by decide)).2 (by simp)⟩⟩

/-- C20. Whenever `EncodeBytesWithLengthPrefix` returns without error (buffer shorter than
`2 ^ 32` bytes, no `uint32` wrap), one of two cases holds.  Either `offset + 4 = len(buf)`:
the big-endian length fills the last 4 bytes, no byte of `data` is written and the returned
offset is `len(buf) + len(data)`.  Or `offset + 4 < len(buf)`: the inner `EncodeUint32`
fails, the offset is reset to 0, no length prefix is written, the first
`min(len(buf), len(data))` bytes of `data` are copied to the start of `buf` and the returned
offset is `len(data)`. -/
theorem C20_length_prefix_cases (buf data buf1 : Buf) (offset o : Nat)
    (hlen : buf.length < 2 ^ 32) (hnw : offset + 4 + data.length < 2 ^ 32)
    (h : EncodeBytesWithLengthPrefix buf offset data = some (buf1, o, none)) :
    (offset + 4 = buf.length ∧
      buf1 = buf.take offset ++ [byte (data.length >>> 24), byte (data.length >>> 16),
        byte (data.length >>> 8), byte data.length] ∧
      o = buf.length + data.length) ∨
    (offset + 4 < buf.length ∧
      EncodeUint32 buf offset data.length =
        some (buf, 0, some (.insufficientBuffer buf.length (offset + 4))) ∧
      buf1 = data.take buf.length ++ buf.drop data.length ∧
      o = data.length) := by
  have hu : u32 buf.length = buf.length := Nat.mod_eq_of_lt hlen
  have hd : u32 data.length = data.length := Nat.mod_eq_of_lt (by omega)
  have h4 : u32 (offset + 4) = offset + 4 := Nat.mod_eq_of_lt (by omega)
  unfold EncodeBytesWithLengthPrefix at h
  simp only [hd, hu] at h
  split at h
  · simp at h
  · by_cases hc : offset + 4 < buf.length
    · right
      have hE : EncodeUint32 buf offset data.length =
          some (buf, 0, some (.insufficientBuffer buf.length (offset + 4))) := by
        unfold EncodeUint32
        simp only [hu, h4, hc, if_true]
      rw [hE] at h
      have hd0 : u32 (0 + data.length) = data.length := by rw [Nat.zero_add]; exact hd
      simp only [sliceFrom, Nat.zero_le, if_true, List.drop_zero, writeTail, List.take_zero,
        List.nil_append, hd0, Option.some.injEq, Prod.mk.injEq, and_true] at h
      obtain ⟨rfl, rfl⟩ := h
      exact ⟨hc, hE, rfl, rfl⟩
    · left
      unfold EncodeUint32 at h
      simp only [hu, h4, hc, if_false] at h
      split at h
      · cases h
      · rename_i b1' off1 e1 hE
        split at hE
        · cases hE
        · rename_i b hb
          split at hE
          · cases hE
          · rename_i b1 hb1
            simp only [Option.some.injEq, Prod.mk.injEq] at hE
            obtain ⟨rfl, rfl, rfl⟩ := hE
            obtain ⟨hle, rfl⟩ := sliceFrom_some buf b offset hb
            have h4le := PutUint32_length _ _ _ hb1
            rw [List.length_drop] at h4le
            have heq : offset + 4 = buf.length := by omega
            have hb4 : (List.drop offset buf).length = 4 := by
              rw [List.length_drop]; omega
            have hb1eq := PutUint32_four _ _ _ hb4 hb1
            have hwl : (writeTail buf offset b1).length = offset + 4 := by
              simp [writeTail, hb1eq, List.length_take]; omega
            have hcopy : copy (List.drop (offset + 4) (writeTail buf offset b1)) data = [] := by
              rw [List.drop_of_length_le (by omega)]
              simp [copy]
            have ho : u32 (offset + 4 + data.length) = buf.length + data.length := by
              rw [← heq]; exact Nat.mod_eq_of_lt hnw
            simp only [sliceFrom, hwl, le_refl, if_true, hcopy, ho, Option.some.injEq,
              Prod.mk.injEq, and_true] at h
            obtain ⟨rfl, rfl⟩ := h
            refine ⟨heq, ?_, rfl⟩
            rw [writeTail, List.append_nil, List.take_of_length_le (by omega), writeTail, hb1eq]

/-- C20, witness: case (a) on a 4-byte buffer and case (b) on a 5-byte buffer. -/
theorem C20_length_prefix_cases_witness :
    (EncodeBytesWithLengthPrefix [9, 9, 9, 9] 0 [1, 2, 3, 4, 5] =
        some ([0, 0, 0, 5], 9, none) ∧
      ((0 + 4 = [9, 9, 9, 9].length ∧
          [0, 0, 0, 5] = List.take 0 [9, 9, 9, 9] ++ [byte ([1, 2, 3, 4, 5].length >>> 24),
            byte ([1, 2, 3, 4, 5].length >>> 16), byte ([1, 2, 3, 4, 5].length >>> 8),
            byte [1, 2, 3, 4, 5].length] ∧
          9 = [9, 9, 9, 9].length + [1, 2, 3, 4, 5].length) ∨
        (0 + 4 < [9, 9, 9, 9].length ∧
          EncodeUint32 [9, 9, 9, 9] 0 [1, 2, 3, 4, 5].length =
            some ([9, 9, 9, 9], 0, some (.insufficientBuffer [9, 9, 9, 9].length (0 + 4))) ∧
          [0, 0, 0, 5] = List.take [9, 9, 9, 9].length [1, 2, 3, 4, 5] ++
            List.drop [1, 2, 3, 4, 5].length [9, 9, 9, 9] ∧
          9 = [1, 2, 3, 4, 5].length))) ∧
    (EncodeBytesWithLengthPrefix [9, 9, 9, 9, 9] 0 [1, 2, 3, 4, 5, 6, 7] =
        some ([1, 2, 3, 4, 5], 7, none) ∧
      ((0 + 4 = [9, 9, 9, 9, 9].length ∧
          [1, 2, 3, 4, 5] = List.take 0 [9, 9, 9, 9, 9] ++
            [byte ([1, 2, 3, 4, 5, 6, 7].length >>> 24),
              byte ([1, 2, 3, 4, 5, 6, 7].length >>> 16),
              byte ([1, 2, 3, 4, 5, 6, 7].length >>> 8), byte [1, 2, 3, 4, 5, 6, 7].length] ∧
          7 = [9, 9, 9, 9, 9].length + [1, 2, 3, 4, 5, 6, 7].length) ∨
        (0 + 4 < [9, 9, 9, 9, 9].length ∧
          EncodeUint32 [9, 9, 9, 9, 9] 0 [1, 2, 3, 4, 5, 6, 7].length =
            some ([9, 9, 9, 9, 9], 0,
              some (.insufficientBuffer [9, 9, 9, 9, 9].length (0 + 4))) ∧
          [1, 2, 3, 4, 5] = List.take [9, 9, 9, 9, 9].length [1, 2, 3, 4, 5, 6, 7] ++
            List.drop [1, 2, 3, 4, 5, 6, 7].length [9, 9, 9, 9, 9] ∧
          7 = [1, 2, 3, 4, 5, 6, 7].length))) :=
  ⟨⟨by decide, C20_length_prefix_cases [9, 9, 9, 9] [1, 2, 3, 4, 5] [0, 0, 0, 5] 0 9
      (by decide) (by decide) (by decide)⟩,
   ⟨by decide, C20_length_prefix_cases [9, 9, 9, 9, 9] [1, 2, 3, 4, 5, 6, 7] [1, 2, 3, 4, 5] 0 7
      (by decide) (by decide) (by decide)⟩⟩

end Ssz
